import Mathlib

/-! Pairwise squared-distance kernel (`contrib_ops/cpu/cdist.h`)

A shallow embedding of the `CDist` kernel and of the functions it is built from.

Modelling conventions.

* `T` is a type `α` with `0`, `+`, `-` and `*`.  The theorems about computed
  values take `α` to be a ring (exact arithmetic); `Flt` stands for a
  floating-point `T` as far as the IEEE 754 special values go.
* `size_t` and `Eigen::Index` values are natural numbers; the buffers exist in
  memory, so the products `n * i`, `n * j` and `ma * mb` are within range.
* A `const T*` is a `Ptr`: a read-only buffer together with an offset.  Reading
  outside the buffer is a fault.
* The output memory is a list of cells; a `T*` into it is an offset.  Storing
  outside the buffer is a fault.  Every executed `*dest++ = f(a1, b1, n)` is
  recorded in a trace, in execution order.
* Integer division by zero, a failed `assert` (when `NDEBUG` is not defined:
  the flag `ndebug` is `false`), and a loop counter that has passed the bound
  it is compared against with `!=` are faults.
* The worker bodies of a `parallelFor` are run one after the other.
-/

namespace onnxruntime
namespace contrib

/-- Ways in which an execution stops without returning -/
inductive Fault where
  | outOfBounds
  | divByZero
  | assertFailed
  | overrun
  deriving DecidableEq, Repr

deriving instance DecidableEq for Except

/-- A `const T*`: a read-only buffer and an offset into it -/
structure Ptr (α : Type) where
  buf : List α
  off : Nat
  deriving DecidableEq, Repr

/-- Pointer arithmetic `p + d` -/
def Ptr.add {α : Type} (p : Ptr α) (d : Nat) : Ptr α :=
  ⟨p.buf, p.off + d⟩

/-- The read `p[k]` -/
def Ptr.read {α : Type} (p : Ptr α) (k : Nat) : Except Fault α :=
  match p.buf[p.off + k]? with
  | some v => pure v
  | none => throw Fault.outOfBounds

/-- The loop `for (; x != hi; ++x) body`, entered with the counter at `x`.
The first argument bounds the number of iterations. -/
def forUntilAux {σ : Type} (hi : Nat) (body : Nat → σ → Except Fault σ) :
    Nat → Nat → σ → Except Fault σ
  | 0, x, s => if x = hi then pure s else throw Fault.overrun
  | fuel + 1, x, s =>
    if x = hi then pure s
    else do
      let s1 ← body x s
      forUntilAux hi body fuel (x + 1) s1

/-- The loop `for (; x != hi; ++x) body`, entered with the counter at `x`.
`hi - x` iterations reach the bound when `x ≤ hi`; a counter that starts past
the bound never meets it. -/
def forUntil {σ : Type} (hi : Nat) (body : Nat → σ → Except Fault σ) (x : Nat) (s : σ) :
    Except Fault σ :=
  forUntilAux hi body (hi - x) x s

/-- The body of `Sqeuclidean::operator()`: the accumulation loop and the return -/
def Sqeuclidean.call {α : Type} [Zero α] [Add α] [Sub α] [Mul α] (a1 b1 : Ptr α) (n : Nat) :
    Except Fault α := do
  let sum : α := 0
  let sum ← forUntil n (fun k sum => do
    let x ← a1.read k
    let y ← b1.read k
    let t := x - y
    pure (sum + t * t)) 0 sum
  pure sum

/-- Modelled from the spec: Eigen is not part of the sources.
`ConstEigenVectorMap<T>(p, n)` is the vector of the `n` elements starting at
`p`, read when the expression is evaluated. -/
def ConstEigenVectorMap {α : Type} (p : Ptr α) : Nat → Except Fault (List α)
  | 0 => pure []
  | n + 1 => do
    let x ← p.read 0
    let xs ← ConstEigenVectorMap (p.add 1) n
    pure (x :: xs)

/-- The body of `SqeuclideanWithEigen::operator()`:
`(map(a1, n) - map(b1, n)).array().square().sum()`, with Eigen's operators read
as the elementwise difference, the elementwise square and the sum of the
entries (zero for an empty vector) -/
def SqeuclideanWithEigen.call {α : Type} [Ring α] (a1 b1 : Ptr α) (n : Nat) :
    Except Fault α := do
  let va ← ConstEigenVectorMap a1 n
  let vb ← ConstEigenVectorMap b1 n
  pure (((List.zipWith (fun x y => x - y) va vb).map (fun t => t * t)).sum)

/-- The template parameter `ElemFunc`: a functor class, known by its name and
its call operator -/
structure ElemFunc (α : Type) where
  name : String
  call : Ptr α → Ptr α → Nat → Except Fault α

/-- The class `Sqeuclidean<T>` -/
def Sqeuclidean {α : Type} [Zero α] [Add α] [Sub α] [Mul α] : ElemFunc α :=
  ⟨"Sqeuclidean", Sqeuclidean.call⟩

/-- The class `SqeuclideanWithEigen<T>` -/
def SqeuclideanWithEigen {α : Type} [Ring α] : ElemFunc α :=
  ⟨"SqeuclideanWithEigen", SqeuclideanWithEigen.call⟩

/-- One executed `*dest++ = f(a1, b1, n)`: the functor called, the values of the
loop variables `i` and `j`, and the offset stored to -/
structure Ev where
  fn : String
  i : Nat
  j : Nat
  off : Nat
  deriving DecidableEq, Repr

/-- The output memory and the record of the stores made to it -/
structure Out (α : Type) where
  mem : List α
  trace : List Ev
  deriving DecidableEq, Repr

/-- A `T*` variable into the output memory, with the memory it points into -/
structure Cur (α : Type) where
  out : Out α
  pos : Nat
  deriving DecidableEq, Repr

/-- The statement `*dest++ = f(a1, b1, n)`, executed with loop variables `i`, `j` -/
def emit {α : Type} (f : ElemFunc α) (a1 b1 : Ptr α) (n i j : Nat) (c : Cur α) :
    Except Fault (Cur α) := do
  let v ← f.call a1 b1 n
  if c.pos < c.out.mem.length then
    pure ⟨⟨c.out.mem.set c.pos v, c.out.trace ++ [⟨f.name, i, j, c.pos⟩]⟩, c.pos + 1⟩
  else
    throw Fault.outOfBounds

/-- The function `cdist_single_threaded<T, ElemFunc>(a, b, dest, ma, mb, n)`;
`dest` is the offset of the destination in the output memory `o` -/
def cdist_single_threaded {α : Type} (f : ElemFunc α) (a b : Ptr α) (dest : Nat)
    (ma mb n : Nat) (o : Out α) : Except Fault (Out α) := do
  let c ← forUntil ma (fun i c => do
    let a1 := a.add (n * i)
    forUntil mb (fun j c => do
      let b1 := b.add (n * j)
      emit f a1 b1 n i j c) 0 c) 0 (⟨o, dest⟩ : Cur α)
  pure c.out

/-- The macro `assert(c)`: nothing when `NDEBUG` is defined -/
def cAssert (ndebug : Bool) (c : Bool) : Except Fault Unit :=
  if ndebug || c then pure () else throw Fault.assertFailed

/-- Integer division `x / y` -/
def cDiv (x y : Nat) : Except Fault Nat :=
  if y = 0 then throw Fault.divByZero else pure (x / y)

set_option linter.unusedVariables false in
/-- The lambda that `cdist` hands to `parallelFor`, called on `[start, end)`
(`end` is written `stop`); `ma` is captured and not used -/
def cdist_worker {α : Type} (ndebug : Bool) (f : ElemFunc α) (a b : Ptr α) (dest : Nat)
    (ma mb n : Nat) (start stop : Nat) (o : Out α) : Except Fault (Out α) := do
  let i ← cDiv start mb
  let j := start - i * mb
  cAssert ndebug (i * mb + j == start)
  let i_end ← cDiv stop mb
  let j_end := stop - i_end * mb
  cAssert ndebug (i_end * mb + j_end == stop)
  let dest_local : Cur α := ⟨o, dest + start⟩
  -- the rows before `i_end`; the state carries `j` and `dest_local`
  let (_, dest_local) ← forUntil i_end (fun i (st : Nat × Cur α) => do
    let a1 := a.add (n * i)
    let c ← forUntil mb (fun j c => do
      let b1 := b.add (n * j)
      emit f a1 b1 n i j c) st.1 st.2
    pure (0, c)) i (j, dest_local)
  -- here `i == i_end`
  let a1 := a.add (n * i_end)
  let dest_local ← forUntil j_end (fun j c => do
    let b1 := b.add (n * j)
    emit f a1 b1 n i_end j c) 0 dest_local
  cAssert ndebug (dest_local.pos == dest + stop)
  pure dest_local.out

/-- Modelled from the spec: `concurrency::ThreadPool` and Eigen's
`ThreadPoolDevice::parallelFor` are not part of the sources.  A thread pool is
its thread count and the subranges `[start, end)` its `parallelFor` hands to the
worker body, given the device's thread count, the number of work items and the
cost per item.  The worker bodies are run one after the other, in list order. -/
structure ThreadPool where
  NumThreads : Nat
  blocks : Nat → Nat → Nat → List (Nat × Nat)

/-- Running a worker body once per subrange, in list order -/
def runBlocks {σ : Type} (body : Nat → Nat → σ → Except Fault σ) :
    List (Nat × Nat) → σ → Except Fault σ
  | [], s => pure s
  | r :: rs, s => do
    let s1 ← body r.1 r.2 s
    runBlocks body rs s1

/-- Modelled from the spec: `device.parallelFor(total, TensorOpCost(0, 0, cost), body)`
for a device made of `threads` threads of the pool `tp` -/
def parallelFor {σ : Type} (tp : ThreadPool) (threads : Nat) (total cost : Nat)
    (body : Nat → Nat → σ → Except Fault σ) (s : σ) : Except Fault σ :=
  runBlocks body (tp.blocks threads total cost) s

/-- The function `cdist<T, ElemFunc>(a, b, dest, ma, mb, n, tp)`; a null `tp` is `none` -/
def cdist {α : Type} (ndebug : Bool) (f : ElemFunc α) (a b : Ptr α) (dest : Nat)
    (ma mb n : Nat) (tp : Option ThreadPool) (o : Out α) : Except Fault (Out α) :=
  match tp with
  | none => cdist_single_threaded f a b dest ma mb n o
  | some tp =>
    parallelFor tp (tp.NumThreads + 1) (ma * mb) (3 * n)
      (cdist_worker ndebug f a b dest ma mb n) o

/-- What the constructor needs of `OpKernelInfo`: `GetAttr<std::string>(name, &value)`,
which fails when the attribute is absent -/
structure OpKernelInfo where
  GetAttr : String → Option String

/-- Exceptions a kernel constructor can raise -/
inductive KernelError where
  | enforceFailed
  | notImplemented
  deriving DecidableEq, Repr

/-- The kernel object `CDist<T>`: its only data member is `mode_` -/
structure CDist where
  mode_ : Int
  deriving DecidableEq, Repr

/-- The constructor `CDist(const OpKernelInfo& info)`.
Modelled from the spec: `ORT_ENFORCE(c)` raises when `c` is false and
`ORT_NOT_IMPLEMENTED()` raises a not-implemented error. -/
def CDist.new (info : OpKernelInfo) : Except KernelError CDist :=
  match info.GetAttr "metric" with
  | none => throw KernelError.enforceFailed
  | some metric =>
    if metric = "sqeuclidean" then pure ⟨0⟩
    else throw KernelError.notImplemented

/-- A tensor: its shape and its elements in row-major order -/
structure Tensor (α : Type) where
  Shape : List Nat
  Data : List α
  deriving DecidableEq, Repr

/-- The number of elements a shape stands for -/
def shapeSize (shape : List Nat) : Nat :=
  shape.foldl (fun x y => x * y) 1

/-- A tensor holds as many elements as its shape says -/
def Tensor.WellFormed {α : Type} (t : Tensor α) : Prop :=
  t.Data.length = shapeSize t.Shape

/-- What `Compute` uses of `OpKernelContext`: the operator thread pool, the two
inputs (`InputCount() == 2` is asserted by the code), the output slot, empty
until `Output(0, shape)` is called, and the contents of the memory an
allocation hands out -/
structure OpKernelContext (α : Type) where
  tp : Option ThreadPool
  A : Tensor α
  B : Tensor α
  fresh : Nat → α
  output : Option (List Nat × Out α)

/-- The call `context->Output(0, shape)`: allocates the output tensor, whose
cells hold whatever the allocation hands out -/
def OpKernelContext.Output {α : Type} (context : OpKernelContext α) (shape : List Nat) : Out α :=
  ⟨(List.range (shapeSize shape)).map context.fresh, []⟩

/-- The value a kernel returns.
Modelled from the spec: `ORT_MAKE_STATUS(ONNXRUNTIME, FAIL, msg, ...)` is a
failure status carrying the message text. -/
inductive Status where
  | OK
  | FAIL (msg : String)
  deriving DecidableEq, Repr

/-- The method `CDist::Compute(OpKernelContext* context)`; returns the status and
the context as the call leaves it.  A failure status carries the literal text
of its message (the shapes printed after it are left out); `output`, the result
of `C->MutableData<T>()`, is offset `0` of the output tensor. -/
def CDist.Compute {α : Type} [Ring α] (ndebug : Bool) (self : CDist)
    (context : OpKernelContext α) : Except Fault (Status × OpKernelContext α) :=
  let tp := context.tp
  let A := context.A
  let B := context.B
  let shape_a := A.Shape
  let shape_b := B.Shape
  if shape_a.length ≠ 2 then
    pure (Status.FAIL "The first input of CDist kernel has wrong shape: ", context)
  else if shape_b.length ≠ 2 then
    pure (Status.FAIL "The second input of CDist kernel has wrong shape: ", context)
  else if shape_a.getD 1 0 ≠ shape_b.getD 1 0 then
    pure (Status.FAIL "Input shape dimensions mismatch:", context)
  else
    let output_shape := [shape_a.getD 0 0, shape_b.getD 0 0]
    let C := context.Output output_shape
    let output := 0
    if self.mode_ = 0 then
      if shape_a.getD 1 0 ≥ 8 then do
        let C1 ← cdist ndebug SqeuclideanWithEigen ⟨A.Data, 0⟩ ⟨B.Data, 0⟩ output
          (shape_a.getD 0 0) (shape_b.getD 0 0) (shape_a.getD 1 0) tp C
        pure (Status.OK, ⟨context.tp, context.A, context.B, context.fresh, some (output_shape, C1)⟩)
      else do
        let C1 ← cdist ndebug Sqeuclidean ⟨A.Data, 0⟩ ⟨B.Data, 0⟩ output
          (shape_a.getD 0 0) (shape_b.getD 0 0) (shape_a.getD 1 0) tp C
        pure (Status.OK, ⟨context.tp, context.A, context.B, context.fresh, some (output_shape, C1)⟩)
    else
      pure (Status.OK, ⟨context.tp, context.A, context.B, context.fresh, some (output_shape, C)⟩)

/-- The squared Euclidean distance as the specification words it:
the sum over `k < n` of `(a[k] - b[k])^2` -/
def sqdist_spec {α : Type} [Ring α] (a b : Ptr α) (n : Nat) : α :=
  ((List.range n).map (fun k => (a.buf.getD (a.off + k) 0 - b.buf.getD (b.off + k) 0) ^ 2)).sum

/-- A list of subranges divides `[lo, hi)` into contiguous, non-overlapping
pieces: each piece starts where the one before it ends -/
def IsDivision : Nat → Nat → List (Nat × Nat) → Prop
  | lo, hi, [] => lo = hi
  | lo, hi, r :: rs => r.1 = lo ∧ r.1 ≤ r.2 ∧ r.2 ≤ hi ∧ IsDivision r.2 hi rs

instance instDecidableIsDivision : (lo hi : Nat) → (rs : List (Nat × Nat)) →
    Decidable (IsDivision lo hi rs)
  | lo, hi, [] => inferInstanceAs (Decidable (lo = hi))
  | lo, hi, r :: rs =>
    have := instDecidableIsDivision r.2 hi rs
    inferInstanceAs (Decidable (r.1 = lo ∧ r.1 ≤ r.2 ∧ r.2 ≤ hi ∧ IsDivision r.2 hi rs))

/-- Modelled from the spec: the element type is floating point (section 4.1
speaks of floating-point tolerance; the registration of the kernel for `float`
and `double` is not part of the sources).  `Flt` is such a `T` as far as the
IEEE 754 special values go: a finite value, kept exact (rounding and overflow
are not modelled), an infinity with its sign, or NaN. -/
inductive Flt where
  | fin (x : Int)
  | inf (negative : Bool)
  | nan
  deriving DecidableEq, Repr

/-- IEEE 754 addition on `Flt`: infinities of opposite sign add up to NaN -/
def Flt.add : Flt → Flt → Flt
  | Flt.fin x, Flt.fin y => Flt.fin (x + y)
  | Flt.fin _, Flt.inf s => Flt.inf s
  | Flt.inf s, Flt.fin _ => Flt.inf s
  | Flt.inf s, Flt.inf t => if s = t then Flt.inf s else Flt.nan
  | Flt.nan, _ => Flt.nan
  | _, Flt.nan => Flt.nan

/-- IEEE 754 subtraction on `Flt`: an infinity minus itself is NaN -/
def Flt.sub : Flt → Flt → Flt
  | Flt.fin x, Flt.fin y => Flt.fin (x - y)
  | Flt.fin _, Flt.inf s => Flt.inf (!s)
  | Flt.inf s, Flt.fin _ => Flt.inf s
  | Flt.inf s, Flt.inf t => if s = t then Flt.nan else Flt.inf s
  | Flt.nan, _ => Flt.nan
  | _, Flt.nan => Flt.nan

/-- IEEE 754 multiplication on `Flt`: zero times an infinity is NaN -/
def Flt.mul : Flt → Flt → Flt
  | Flt.fin x, Flt.fin y => Flt.fin (x * y)
  | Flt.fin x, Flt.inf s => if x = 0 then Flt.nan else Flt.inf (xor s (decide (x < 0)))
  | Flt.inf s, Flt.fin y => if y = 0 then Flt.nan else Flt.inf (xor s (decide (y < 0)))
  | Flt.inf s, Flt.inf t => Flt.inf (xor s t)
  | Flt.nan, _ => Flt.nan
  | _, Flt.nan => Flt.nan

instance : Zero Flt := ⟨Flt.fin 0⟩

instance : Add Flt := ⟨Flt.add⟩

instance : Sub Flt := ⟨Flt.sub⟩

instance : Mul Flt := ⟨Flt.mul⟩

/-- Modelled from the spec: the work partitioner (Eigen's `parallelFor`) is not
part of the sources.  Section 4.4: it divides `[0, T)` into contiguous,
non-overlapping subranges of balanced cost.  `splitFrom size hi fuel lo` cuts
`[lo, hi)` into consecutive pieces of `size` items, the last one shorter when
`size` does not divide the length; `fuel` bounds the number of pieces. -/
def splitFrom (size hi : Nat) : Nat → Nat → List (Nat × Nat)
  | 0, _ => []
  | fuel + 1, lo =>
    if lo < hi then
      (lo, min (lo + size) hi) :: splitFrom size hi fuel (min (lo + size) hi)
    else []

/-- Modelled from the spec: the subranges of section 4.4 for `total` items and
`workers` workers.  The cost per item is the same for every item, so balanced
pieces are pieces of equal size, `total / workers` rounded up; there are
`workers` of them, or fewer when `total` is small. -/
def partitionRange (total workers : Nat) : List (Nat × Nat) :=
  splitFrom ((total + workers - 1) / workers) total total 0

/-- Modelled from the spec: a thread pool of `numThreads` threads whose
`parallelFor` hands out the subranges of section 4.4 -/
def specPool (numThreads : Nat) : ThreadPool :=
  ⟨numThreads, fun threads total _ => partitionRange total threads⟩

/-- The state of a destination pointer after `c` stores made from offset `p0`
of the output `o` on: the `k`-th store is recorded as `ev k` and leaves
`val k` at offset `p0 + k`; every other cell is as in `o`. -/
def FilledTo {α : Type} (ev : Nat → Ev) (val : Nat → α) (o : Out α) (p0 c : Nat)
    (cur : Cur α) : Prop :=
  cur.pos = p0 + c ∧
  cur.out.trace = o.trace ++ (List.range c).map ev ∧
  cur.out.mem.length = o.mem.length ∧
  (∀ k, k < c → cur.out.mem[p0 + k]? = some (val k)) ∧
  (∀ q, q < p0 ∨ p0 + c ≤ q → cur.out.mem[q]? = o.mem[q]?)

/-- Every store recorded after `o` was made by the functor named `name` -/
def TraceBy {α : Type} (name : String) (o o1 : Out α) : Prop :=
  ∀ e, e ∈ o1.trace → e ∈ o.trace ∨ e.fn = name

/-! ## Loops -/

theorem forUntilAux_inv {σ : Type} (hi : Nat) (body : Nat → σ → Except Fault σ)
    (I : Nat → σ → Prop)
    (hstep : ∀ x s, x < hi → I x s → ∃ s1, body x s = .ok s1 ∧ I (x + 1) s1) :
    ∀ fuel x s, x + fuel = hi → I x s →
      ∃ s1, forUntilAux hi body fuel x s = .ok s1 ∧ I hi s1 := by
  intro fuel
  induction fuel with
  | zero =>
    intro x s hx hI
    have hxe : x = hi := by omega
    subst hxe
    exact ⟨s, by simp [forUntilAux, pure, Except.pure], hI⟩
  | succ fuel ih =>
    intro x s hx hI
    have hlt : x < hi := by omega
    have hne : x ≠ hi := by omega
    obtain ⟨s1, hb, hI1⟩ := hstep x s hlt hI
    obtain ⟨s2, hr, hI2⟩ := ih (x + 1) s1 (by omega) hI1
    refine ⟨s2, ?_, hI2⟩
    simp [forUntilAux, hne, hb, bind, Except.bind, hr]

/-- A loop whose counter starts at or before its bound returns, and carries an
invariant from the entry to the exit -/
theorem forUntil_inv {σ : Type} (hi : Nat) (body : Nat → σ → Except Fault σ)
    (I : Nat → σ → Prop) (x : Nat) (s : σ) (hx : x ≤ hi) (hI : I x s)
    (hstep : ∀ y t, x ≤ y → y < hi → I y t → ∃ t1, body y t = .ok t1 ∧ I (y + 1) t1) :
    ∃ s1, forUntil hi body x s = .ok s1 ∧ I hi s1 := by
  have h := forUntilAux_inv hi body (fun y t => x ≤ y ∧ I y t)
    (fun y t hy hIy => by
      obtain ⟨t1, hb, hI1⟩ := hstep y t hIy.1 hy hIy.2
      exact ⟨t1, hb, by omega, hI1⟩)
    (hi - x) x s (by omega) ⟨le_refl x, hI⟩
  obtain ⟨s1, hr, _, hI1⟩ := h
  exact ⟨s1, hr, hI1⟩

theorem forUntilAux_preserves {σ : Type} (hi : Nat) (body : Nat → σ → Except Fault σ)
    (P : σ → Prop) (hstep : ∀ x s s1, P s → body x s = .ok s1 → P s1) :
    ∀ fuel x s s1, P s → forUntilAux hi body fuel x s = .ok s1 → P s1 := by
  intro fuel
  induction fuel with
  | zero =>
    intro x s s1 hP h
    by_cases hx : x = hi
    · simp [forUntilAux, hx, pure, Except.pure] at h
      exact h ▸ hP
    · simp [forUntilAux, hx, throw, throwThe, MonadExceptOf.throw] at h
  | succ fuel ih =>
    intro x s s1 hP h
    by_cases hx : x = hi
    · simp [forUntilAux, hx, pure, Except.pure] at h
      exact h ▸ hP
    · simp only [forUntilAux, hx, if_false, bind, Except.bind] at h
      cases hb : body x s with
      | error e => simp [hb] at h
      | ok s2 =>
        simp only [hb] at h
        exact ih (x + 1) s2 s1 (hstep x s s2 hP hb) h

/-- Whatever every iteration preserves holds of the state a loop returns -/
theorem forUntil_preserves {σ : Type} (hi : Nat) (body : Nat → σ → Except Fault σ)
    (P : σ → Prop) (hstep : ∀ x s s1, P s → body x s = .ok s1 → P s1)
    (x : Nat) (s s1 : σ) (hP : P s) (h : forUntil hi body x s = .ok s1) : P s1 :=
  forUntilAux_preserves hi body P hstep (hi - x) x s s1 hP h

/-! ## Reads and the two metrics -/

theorem Ptr.read_ok {α : Type} [Zero α] (p : Ptr α) (k : Nat) (h : p.off + k < p.buf.length) :
    p.read k = .ok (p.buf.getD (p.off + k) 0) := by
  simp [Ptr.read, List.getElem?_eq_getElem h, List.getD_eq_getElem?_getD, pure, Except.pure]

/-- The sum of the first `n` squared differences, as a sum over `List.range` -/
theorem sqdist_spec_succ {α : Type} [Ring α] (a b : Ptr α) (n : Nat) :
    sqdist_spec a b (n + 1) =
      sqdist_spec a b n + (a.buf.getD (a.off + n) 0 - b.buf.getD (b.off + n) 0) ^ 2 := by
  simp [sqdist_spec, List.sum_range_succ]

/-- The plain loop returns the sum of the squared differences -/
theorem Sqeuclidean_call_eq {α : Type} [Ring α] (a1 b1 : Ptr α) (n : Nat)
    (ha : a1.off + n ≤ a1.buf.length) (hb : b1.off + n ≤ b1.buf.length) :
    Sqeuclidean.call a1 b1 n = .ok (sqdist_spec a1 b1 n) := by
  obtain ⟨s1, hr, hs⟩ := forUntil_inv n (fun k sum => do
      let x ← a1.read k
      let y ← b1.read k
      let t := x - y
      pure (sum + t * t)) (fun k (sum : α) => sum = sqdist_spec a1 b1 k) 0 (0 : α)
    (Nat.zero_le n) (by simp [sqdist_spec])
    (fun y t _ hy hI => by
      refine ⟨sqdist_spec a1 b1 (y + 1), ?_, rfl⟩
      show (do
        let x ← a1.read y
        let y1 ← b1.read y
        let t1 := x - y1
        pure (t + t1 * t1)) = _
      rw [Ptr.read_ok a1 y (by omega), Ptr.read_ok b1 y (by omega)]
      have hI1 : t = sqdist_spec a1 b1 y := hI
      simp [bind, Except.bind, pure, Except.pure, hI1, pow_two, sqdist_spec_succ])
  have hc : Sqeuclidean.call a1 b1 n = (forUntil n (fun k sum => do
      let x ← a1.read k
      let y ← b1.read k
      let t := x - y
      pure (sum + t * t)) 0 (0 : α) >>= fun sum => pure sum) := rfl
  rw [hc, hr, hs]
  rfl

theorem ConstEigenVectorMap_eq {α : Type} [Zero α] (n : Nat) :
    ∀ p : Ptr α, p.off + n ≤ p.buf.length →
      ConstEigenVectorMap p n = .ok ((List.range n).map (fun k => p.buf.getD (p.off + k) 0)) := by
  induction n with
  | zero => intro p _; simp [ConstEigenVectorMap, pure, Except.pure]
  | succ n ih =>
    intro p hp
    have h1 := ih (p.add 1) (by simp only [Ptr.add]; omega)
    have h0 := Ptr.read_ok p 0 (by omega)
    simp only [ConstEigenVectorMap, h0, h1, bind, Except.bind, pure, Except.pure]
    simp [List.range_succ_eq_map, Ptr.add, Nat.add_assoc, Nat.add_comm 1, Function.comp_def]

theorem zipWith_map_same {β γ δ ε : Type} (g : γ → δ → ε) (u : β → γ) (v : β → δ) (l : List β) :
    List.zipWith g (l.map u) (l.map v) = l.map (fun x => g (u x) (v x)) := by
  induction l with
  | nil => simp
  | cons x xs ih => simp [ih]

/-- The Eigen expression returns the sum of the squared differences -/
theorem SqeuclideanWithEigen_call_eq {α : Type} [Ring α] (a1 b1 : Ptr α) (n : Nat)
    (ha : a1.off + n ≤ a1.buf.length) (hb : b1.off + n ≤ b1.buf.length) :
    SqeuclideanWithEigen.call a1 b1 n = .ok (sqdist_spec a1 b1 n) := by
  simp only [SqeuclideanWithEigen.call, ConstEigenVectorMap_eq n a1 ha,
    ConstEigenVectorMap_eq n b1 hb, bind, Except.bind, pure, Except.pure, zipWith_map_same,
    sqdist_spec, List.map_map, Function.comp_def, pow_two]

/-- Row `i` of a matrix of `m` rows of `n` elements lies inside the matrix -/
theorem row_in_bounds {α : Type} (a : Ptr α) (m n i : Nat) (hi : i < m)
    (ha : a.off + m * n ≤ a.buf.length) : (a.add (n * i)).off + n ≤ a.buf.length := by
  have h : n * i + n ≤ m * n := by
    calc n * i + n = n * (i + 1) := by ring
      _ ≤ n * m := Nat.mul_le_mul_left n hi
      _ = m * n := Nat.mul_comm n m
  simp only [Ptr.add]
  omega

/-! ## Stores -/

theorem FilledTo.start {α : Type} (ev : Nat → Ev) (val : Nat → α) (o : Out α) (p0 : Nat) :
    FilledTo ev val o p0 0 ⟨o, p0⟩ := by
  refine ⟨rfl, by simp, rfl, ?_, fun q _ => rfl⟩
  intro k hk
  omega

/-- One `*dest++ = f(a1, b1, n)` extends the filled part of the output by one cell -/
theorem emit_filled {α : Type} (f : ElemFunc α) (a1 b1 : Ptr α) (n i j : Nat)
    (ev : Nat → Ev) (val : Nat → α) (o : Out α) (p0 c : Nat) (cur : Cur α)
    (hF : FilledTo ev val o p0 c cur) (hcall : f.call a1 b1 n = .ok (val c))
    (hev : ev c = ⟨f.name, i, j, p0 + c⟩) (hroom : p0 + c < o.mem.length) :
    ∃ cur1, emit f a1 b1 n i j cur = .ok cur1 ∧ FilledTo ev val o p0 (c + 1) cur1 := by
  obtain ⟨hpos, htr, hlen, hcells, hrest⟩ := hF
  have hlt : cur.pos < cur.out.mem.length := by omega
  refine ⟨⟨⟨cur.out.mem.set cur.pos (val c), cur.out.trace ++ [⟨f.name, i, j, cur.pos⟩]⟩,
    cur.pos + 1⟩, ?_, ?_, ?_, ?_, ?_, ?_⟩
  · simp [emit, hcall, hlt, bind, Except.bind, pure, Except.pure]
  · show cur.pos + 1 = p0 + (c + 1)
    omega
  · show cur.out.trace ++ [⟨f.name, i, j, cur.pos⟩] = o.trace ++ (List.range (c + 1)).map ev
    rw [htr, List.range_succ, List.map_append, List.map_singleton, hev, hpos, List.append_assoc]
  · show (cur.out.mem.set cur.pos (val c)).length = o.mem.length
    rw [List.length_set, hlen]
  · intro k hk
    show (cur.out.mem.set cur.pos (val c))[p0 + k]? = some (val k)
    rw [List.getElem?_set]
    by_cases hkc : k = c
    · subst hkc
      simp [hpos, hlt, hlen, hroom]
    · have hne : ¬ cur.pos = p0 + k := by omega
      simp only [hne, if_false]
      exact hcells k (by omega)
  · intro q hq
    show (cur.out.mem.set cur.pos (val c))[q]? = o.mem[q]?
    rw [List.getElem?_set]
    have hne : ¬ cur.pos = q := by omega
    simp only [hne, if_false]
    exact hrest q (by omega)

theorem div_mod_cell (mb i j : Nat) (hj : j < mb) :
    (i * mb + j) / mb = i ∧ (i * mb + j) % mb = j := by
  have hpos : 0 < mb := by omega
  constructor
  · rw [Nat.add_comm, Nat.add_mul_div_right _ _ hpos, Nat.div_eq_of_lt hj, Nat.zero_add]
  · rw [Nat.add_comm, Nat.add_mul_mod_self_right, Nat.mod_eq_of_lt hj]

/-- The sequential dispatcher returns, having stored cell after cell: the
`k`-th store puts the metric of row `k / mb` of `a` and row `k % mb` of `b` at
offset `dest + k` -/
theorem cdist_single_threaded_filled {α : Type} (f : ElemFunc α) (a b : Ptr α) (dest : Nat)
    (ma mb n : Nat) (o : Out α) (v : Nat → Nat → α)
    (hf : ∀ i, i < ma → ∀ j, j < mb → f.call (a.add (n * i)) (b.add (n * j)) n = .ok (v i j))
    (hd : dest + ma * mb ≤ o.mem.length) :
    ∃ cur, cdist_single_threaded f a b dest ma mb n o = .ok cur.out ∧
      FilledTo (fun k => ⟨f.name, k / mb, k % mb, dest + k⟩) (fun k => v (k / mb) (k % mb))
        o dest (ma * mb) cur := by
  obtain ⟨cur, hr, hI⟩ := forUntil_inv ma (fun i c => do
      let a1 := a.add (n * i)
      forUntil mb (fun j c => do
        let b1 := b.add (n * j)
        emit f a1 b1 n i j c) 0 c)
    (fun i cur => FilledTo (fun k => ⟨f.name, k / mb, k % mb, dest + k⟩)
      (fun k => v (k / mb) (k % mb)) o dest (i * mb) cur) 0 (⟨o, dest⟩ : Cur α)
    (Nat.zero_le ma) (by simpa using FilledTo.start _ _ o dest)
    (fun i c _ hi hIc => by
      have hrow : (i + 1) * mb ≤ ma * mb := Nat.mul_le_mul_right mb hi
      obtain ⟨c1, hr1, hI1⟩ := forUntil_inv mb (fun j c => do
          let b1 := b.add (n * j)
          emit f (a.add (n * i)) b1 n i j c)
        (fun j cur => FilledTo (fun k => ⟨f.name, k / mb, k % mb, dest + k⟩)
          (fun k => v (k / mb) (k % mb)) o dest (i * mb + j) cur) 0 c
        (Nat.zero_le mb) (by simpa using hIc)
        (fun j c2 _ hj hIj => by
          have hdm := div_mod_cell mb i j hj
          have hlt : i * mb + j < (i + 1) * mb := by rw [Nat.add_mul, Nat.one_mul]; omega
          exact emit_filled f (a.add (n * i)) (b.add (n * j)) n i j _ _ o dest (i * mb + j) c2
            hIj (by simp only [hdm.1, hdm.2]; exact hf i hi j hj)
            (by simp only [hdm.1, hdm.2]) (by omega))
      refine ⟨c1, hr1, ?_⟩
      have he : (i + 1) * mb = i * mb + mb := by rw [Nat.add_mul, Nat.one_mul]
      show FilledTo _ _ o dest ((i + 1) * mb) c1
      rw [he]
      exact hI1)
  refine ⟨cur, ?_, hI⟩
  have hc : cdist_single_threaded f a b dest ma mb n o = (forUntil ma (fun i c => do
      let a1 := a.add (n * i)
      forUntil mb (fun j c => do
        let b1 := b.add (n * j)
        emit f a1 b1 n i j c) 0 c) 0 (⟨o, dest⟩ : Cur α) >>= fun c => pure c.out) := rfl
  rw [hc, hr]
  rfl

/-- The sequential dispatcher with the plain-loop metric, on matrices that hold
`ma * n` and `mb * n` elements: it returns, and the `k`-th store leaves the sum
of squared differences of row `k / mb` of `a` and row `k % mb` of `b` -/
theorem cdist_single_threaded_sqeuclidean {α : Type} [Ring α] (a b : Ptr α) (dest : Nat)
    (ma mb n : Nat) (o : Out α) (ha : a.off + ma * n ≤ a.buf.length)
    (hb : b.off + mb * n ≤ b.buf.length) (hd : dest + ma * mb ≤ o.mem.length) :
    ∃ cur, cdist_single_threaded Sqeuclidean a b dest ma mb n o = .ok cur.out ∧
      FilledTo (fun k => ⟨"Sqeuclidean", k / mb, k % mb, dest + k⟩)
        (fun k => sqdist_spec (a.add (n * (k / mb))) (b.add (n * (k % mb))) n)
        o dest (ma * mb) cur :=
  cdist_single_threaded_filled Sqeuclidean a b dest ma mb n o
    (fun i j => sqdist_spec (a.add (n * i)) (b.add (n * j)) n)
    (fun i hi j hj => Sqeuclidean_call_eq _ _ n (row_in_bounds a ma n i hi ha)
      (row_in_bounds b mb n j hj hb)) hd

theorem sqdist_spec_nonneg {α : Type} [LinearOrderedRing α] (a b : Ptr α) (n : Nat) :
    0 ≤ sqdist_spec a b n := by
  unfold sqdist_spec
  apply List.sum_nonneg
  intro x hx
  obtain ⟨k, _, rfl⟩ := List.mem_map.mp hx
  exact sq_nonneg _

/-- C1: `cdist_single_threaded` fills the output in row-major order.  For a
metric that returns `v i j` on row `i` of `a` and row `j` of `b`, and a
destination with room for `ma * mb` cells, the call returns; afterwards the
cell at `dest + (i * mb + j)` holds `v i j` for every `i < ma`, `j < mb`; the
stores made are exactly the `ma * mb` stores to the offsets `dest + 0`,
`dest + 1`, ..., in that order, the `k`-th one made with `i = k / mb` and
`j = k % mb`; no other cell changes. -/
theorem cdist_single_threaded_row_major {α : Type} (f : ElemFunc α) (a b : Ptr α) (dest : Nat)
    (ma mb n : Nat) (o : Out α) (v : Nat → Nat → α)
    (hf : ∀ i, i < ma → ∀ j, j < mb → f.call (a.add (n * i)) (b.add (n * j)) n = .ok (v i j))
    (hd : dest + ma * mb ≤ o.mem.length) :
    ∃ o1, cdist_single_threaded f a b dest ma mb n o = .ok o1 ∧
      (∀ i, i < ma → ∀ j, j < mb → o1.mem[dest + (i * mb + j)]? = some (v i j)) ∧
      o1.trace = o.trace ++
        (List.range (ma * mb)).map (fun k => ⟨f.name, k / mb, k % mb, dest + k⟩) ∧
      o1.mem.length = o.mem.length ∧
      (∀ q, q < dest ∨ dest + ma * mb ≤ q → o1.mem[q]? = o.mem[q]?) := by
  obtain ⟨cur, hr, _, htr, hlen, hcells, hrest⟩ :=
    cdist_single_threaded_filled f a b dest ma mb n o v hf hd
  refine ⟨cur.out, hr, ?_, htr, hlen, hrest⟩
  intro i hi j hj
  have hdm := div_mod_cell mb i j hj
  have hlt : i * mb + j < ma * mb := by
    have h1 : (i + 1) * mb ≤ ma * mb := Nat.mul_le_mul_right mb hi
    rw [Nat.add_mul, Nat.one_mul] at h1
    omega
  have h := hcells (i * mb + j) hlt
  simp only [hdm.1, hdm.2] at h
  exact h

/-- C1, on the literal example: `A = [[0,0],[3,4]]`, `B = [[0,0]]`, `n = 2`
gives `[[0],[25]]` -/
theorem cdist_single_threaded_row_major_witness :
    (∀ i, i < 2 → ∀ j, j < 1 →
      (Sqeuclidean : ElemFunc Int).call ((⟨[0, 0, 3, 4], 0⟩ : Ptr Int).add (2 * i))
        ((⟨[0, 0], 0⟩ : Ptr Int).add (2 * j)) 2 = .ok (if i = 0 then 0 else 25)) ∧
    0 + 2 * 1 ≤ (⟨[7, 7], []⟩ : Out Int).mem.length ∧
    cdist_single_threaded Sqeuclidean (⟨[0, 0, 3, 4], 0⟩ : Ptr Int) ⟨[0, 0], 0⟩ 0 2 1 2
      ⟨[7, 7], []⟩ = .ok ⟨[0, 25], [⟨"Sqeuclidean", 0, 0, 0⟩, ⟨"Sqeuclidean", 1, 0, 1⟩]⟩ ∧
    ∃ o1, cdist_single_threaded Sqeuclidean (⟨[0, 0, 3, 4], 0⟩ : Ptr Int) ⟨[0, 0], 0⟩ 0 2 1 2
        ⟨[7, 7], []⟩ = .ok o1 ∧
      (∀ i, i < 2 → ∀ j, j < 1 → o1.mem[0 + (i * 1 + j)]? = some (if i = 0 then 0 else 25)) ∧
      o1.trace = [] ++
        (List.range (2 * 1)).map (fun k => ⟨"Sqeuclidean", k / 1, k % 1, 0 + k⟩) ∧
      o1.mem.length = 2 ∧
      (∀ q, q < 0 ∨ 0 + 2 * 1 ≤ q → o1.mem[q]? = ([7, 7] : List Int)[q]?) :=
  ⟨by decide, by decide, by decide,
    cdist_single_threaded_row_major Sqeuclidean (⟨[0, 0, 3, 4], 0⟩ : Ptr Int) ⟨[0, 0], 0⟩ 0 2 1 2
      ⟨[7, 7], []⟩ (fun i _ => if i = 0 then 0 else 25) (by decide) (by decide)⟩

/-- C5: both metric variants compute the squared Euclidean distance.  On two
vectors of `n` readable elements, `Sqeuclidean` and `SqeuclideanWithEigen` each
return the sum over `k < n` of `(a[k] - b[k])^2`, so they return the same value,
for every `n`. -/
theorem sqeuclidean_variants_eq_spec {α : Type} [Ring α] (a b : Ptr α) (n : Nat)
    (ha : a.off + n ≤ a.buf.length) (hb : b.off + n ≤ b.buf.length) :
    Sqeuclidean.call a b n = .ok (sqdist_spec a b n) ∧
    SqeuclideanWithEigen.call a b n = .ok (sqdist_spec a b n) ∧
    Sqeuclidean.call a b n = SqeuclideanWithEigen.call a b n := by
  have h1 := Sqeuclidean_call_eq a b n ha hb
  have h2 := SqeuclideanWithEigen_call_eq a b n ha hb
  exact ⟨h1, h2, h1.trans h2.symm⟩

/-- C5, on vectors of length 8 (the first length at which the Eigen variant is
selected); the common value is 204 -/
theorem sqeuclidean_variants_eq_spec_witness :
    (⟨[1, 2, 3, 4, 5, 6, 7, 8], 0⟩ : Ptr Int).off + 8
      ≤ (⟨[1, 2, 3, 4, 5, 6, 7, 8], 0⟩ : Ptr Int).buf.length ∧
    (⟨[0, 0, 0, 0, 0, 0, 0, 0], 0⟩ : Ptr Int).off + 8
      ≤ (⟨[0, 0, 0, 0, 0, 0, 0, 0], 0⟩ : Ptr Int).buf.length ∧
    sqdist_spec (⟨[1, 2, 3, 4, 5, 6, 7, 8], 0⟩ : Ptr Int) ⟨[0, 0, 0, 0, 0, 0, 0, 0], 0⟩ 8 = 204 ∧
    (Sqeuclidean.call (⟨[1, 2, 3, 4, 5, 6, 7, 8], 0⟩ : Ptr Int) ⟨[0, 0, 0, 0, 0, 0, 0, 0], 0⟩ 8
        = .ok (sqdist_spec (⟨[1, 2, 3, 4, 5, 6, 7, 8], 0⟩ : Ptr Int)
          ⟨[0, 0, 0, 0, 0, 0, 0, 0], 0⟩ 8) ∧
      SqeuclideanWithEigen.call (⟨[1, 2, 3, 4, 5, 6, 7, 8], 0⟩ : Ptr Int)
        ⟨[0, 0, 0, 0, 0, 0, 0, 0], 0⟩ 8
        = .ok (sqdist_spec (⟨[1, 2, 3, 4, 5, 6, 7, 8], 0⟩ : Ptr Int)
          ⟨[0, 0, 0, 0, 0, 0, 0, 0], 0⟩ 8) ∧
      Sqeuclidean.call (⟨[1, 2, 3, 4, 5, 6, 7, 8], 0⟩ : Ptr Int) ⟨[0, 0, 0, 0, 0, 0, 0, 0], 0⟩ 8
        = SqeuclideanWithEigen.call (⟨[1, 2, 3, 4, 5, 6, 7, 8], 0⟩ : Ptr Int)
          ⟨[0, 0, 0, 0, 0, 0, 0, 0], 0⟩ 8) :=
  ⟨by decide, by decide, by decide,
    sqeuclidean_variants_eq_spec (⟨[1, 2, 3, 4, 5, 6, 7, 8], 0⟩ : Ptr Int)
      ⟨[0, 0, 0, 0, 0, 0, 0, 0], 0⟩ 8 (by decide) (by decide)⟩

/-- C7: non-negativity over a linearly ordered ring.  On vectors of `n`
readable elements `Sqeuclidean` returns a value `≥ 0`; hence, on matrices of
`ma * n` and `mb * n` elements, `cdist_single_threaded` returns and every one of
the `ma * mb` cells it fills holds a value `≥ 0`. -/
theorem sqeuclidean_nonneg {α : Type} [LinearOrderedRing α] (a b : Ptr α) (dest : Nat)
    (ma mb n : Nat) (o : Out α) (ha : a.off + ma * n ≤ a.buf.length)
    (hb : b.off + mb * n ≤ b.buf.length) (hd : dest + ma * mb ≤ o.mem.length) :
    (∀ a1 b1 : Ptr α, a1.off + n ≤ a1.buf.length → b1.off + n ≤ b1.buf.length →
      ∃ d, Sqeuclidean.call a1 b1 n = .ok d ∧ 0 ≤ d) ∧
    ∃ o1, cdist_single_threaded Sqeuclidean a b dest ma mb n o = .ok o1 ∧
      ∀ k, k < ma * mb → ∃ d, o1.mem[dest + k]? = some d ∧ 0 ≤ d := by
  refine ⟨fun a1 b1 h1 h2 => ⟨_, Sqeuclidean_call_eq a1 b1 n h1 h2, sqdist_spec_nonneg a1 b1 n⟩, ?_⟩
  obtain ⟨cur, hr, _, _, _, hcells, _⟩ :=
    cdist_single_threaded_sqeuclidean a b dest ma mb n o ha hb hd
  exact ⟨cur.out, hr, fun k hk => ⟨_, hcells k hk, sqdist_spec_nonneg _ _ n⟩⟩

/-- C7, on a 2 x 2 by 1 x 2 integer example with entries of both signs -/
theorem sqeuclidean_nonneg_witness :
    (⟨[-1, 2, 3, -4], 0⟩ : Ptr Int).off + 2 * 2 ≤ (⟨[-1, 2, 3, -4], 0⟩ : Ptr Int).buf.length ∧
    (⟨[5, -6], 0⟩ : Ptr Int).off + 1 * 2 ≤ (⟨[5, -6], 0⟩ : Ptr Int).buf.length ∧
    0 + 2 * 1 ≤ (⟨[-7, -7], []⟩ : Out Int).mem.length ∧
    (∀ a1 b1 : Ptr Int, a1.off + 2 ≤ a1.buf.length → b1.off + 2 ≤ b1.buf.length →
      ∃ d, Sqeuclidean.call a1 b1 2 = .ok d ∧ 0 ≤ d) ∧
    ∃ o1, cdist_single_threaded Sqeuclidean (⟨[-1, 2, 3, -4], 0⟩ : Ptr Int) ⟨[5, -6], 0⟩ 0 2 1 2
        ⟨[-7, -7], []⟩ = .ok o1 ∧
      ∀ k, k < 2 * 1 → ∃ d, o1.mem[0 + k]? = some d ∧ 0 ≤ d :=
  ⟨by decide, by decide, by decide,
    sqeuclidean_nonneg (⟨[-1, 2, 3, -4], 0⟩ : Ptr Int) ⟨[5, -6], 0⟩ 0 2 1 2 ⟨[-7, -7], []⟩
      (by decide) (by decide) (by decide)⟩

/-- C10: zero-length vectors give an all-zero, fully populated matrix.  For
`n = 0` both metrics return `0` whatever the two pointers are (nothing is
read), and for every `ma`, `mb` and any inputs `cdist_single_threaded` returns,
makes exactly the `ma * mb` stores to `dest + 0`, `dest + 1`, ... and leaves `0`
in every one of these cells. -/
theorem cdist_single_threaded_zero_length {α : Type} [Ring α] (a b : Ptr α) (dest : Nat)
    (ma mb : Nat) (o : Out α) (hd : dest + ma * mb ≤ o.mem.length) :
    (∀ a1 b1 : Ptr α, Sqeuclidean.call a1 b1 0 = .ok 0 ∧
      SqeuclideanWithEigen.call a1 b1 0 = .ok 0) ∧
    ∃ o1, cdist_single_threaded Sqeuclidean a b dest ma mb 0 o = .ok o1 ∧
      o1.trace = o.trace ++
        (List.range (ma * mb)).map (fun k => ⟨"Sqeuclidean", k / mb, k % mb, dest + k⟩) ∧
      ∀ k, k < ma * mb → o1.mem[dest + k]? = some 0 := by
  refine ⟨fun a1 b1 => ⟨rfl, rfl⟩, ?_⟩
  obtain ⟨cur, hr, _, htr, _, hcells, _⟩ :=
    cdist_single_threaded_filled Sqeuclidean a b dest ma mb 0 o (fun _ _ => 0)
      (fun _ _ _ _ => rfl) hd
  exact ⟨cur.out, hr, htr, hcells⟩

/-- C10, on a 2 x 3 output computed from empty input buffers -/
theorem cdist_single_threaded_zero_length_witness :
    0 + 2 * 3 ≤ (⟨[7, 7, 7, 7, 7, 7], []⟩ : Out Int).mem.length ∧
    cdist_single_threaded Sqeuclidean (⟨[], 0⟩ : Ptr Int) ⟨[], 0⟩ 0 2 3 0
      ⟨[7, 7, 7, 7, 7, 7], []⟩ = .ok ⟨[0, 0, 0, 0, 0, 0],
        [⟨"Sqeuclidean", 0, 0, 0⟩, ⟨"Sqeuclidean", 0, 1, 1⟩, ⟨"Sqeuclidean", 0, 2, 2⟩,
         ⟨"Sqeuclidean", 1, 0, 3⟩, ⟨"Sqeuclidean", 1, 1, 4⟩, ⟨"Sqeuclidean", 1, 2, 5⟩]⟩ ∧
    (∀ a1 b1 : Ptr Int, Sqeuclidean.call a1 b1 0 = .ok 0 ∧
      SqeuclideanWithEigen.call a1 b1 0 = .ok 0) ∧
    ∃ o1, cdist_single_threaded Sqeuclidean (⟨[], 0⟩ : Ptr Int) ⟨[], 0⟩ 0 2 3 0
        ⟨[7, 7, 7, 7, 7, 7], []⟩ = .ok o1 ∧
      o1.trace = [] ++
        (List.range (2 * 3)).map (fun k => ⟨"Sqeuclidean", k / 3, k % 3, 0 + k⟩) ∧
      ∀ k, k < 2 * 3 → o1.mem[0 + k]? = some 0 :=
  ⟨by decide, by decide,
    cdist_single_threaded_zero_length (⟨[], 0⟩ : Ptr Int) ⟨[], 0⟩ 0 2 3 ⟨[7, 7, 7, 7, 7, 7], []⟩
      (by decide)⟩

/-- C4: constructing the kernel succeeds exactly when the attribute `metric`
is present and equals `sqeuclidean`, and then `mode_` is `0`; any other metric
identifier raises the not-implemented error, so no kernel object, and hence no
`Compute` call, exists for an unsupported metric. -/
theorem CDist_new_iff (info : OpKernelInfo) :
    ((∃ k, CDist.new info = .ok k) ↔ info.GetAttr "metric" = some "sqeuclidean") ∧
    (∀ k, CDist.new info = .ok k → k.mode_ = 0) ∧
    (∀ m, info.GetAttr "metric" = some m → m ≠ "sqeuclidean" →
      CDist.new info = .error KernelError.notImplemented) := by
  unfold CDist.new
  cases h : info.GetAttr "metric" with
  | none => simp [throw, throwThe, MonadExceptOf.throw]
  | some m =>
    by_cases hm : m = "sqeuclidean"
    · subst hm
      simp [pure, Except.pure]
    · simp [hm, throw, throwThe, MonadExceptOf.throw]

/-- C4, on the metric identifier `manhattan` -/
theorem CDist_new_iff_witness :
    CDist.new ⟨fun s => if s = "metric" then some "manhattan" else none⟩
      = .error KernelError.notImplemented ∧
    CDist.new ⟨fun s => if s = "metric" then some "sqeuclidean" else none⟩ = .ok ⟨0⟩ ∧
    CDist.new ⟨fun _ => none⟩ = .error KernelError.enforceFailed ∧
    ¬ (∃ k, CDist.new ⟨fun s => if s = "metric" then some "manhattan" else none⟩ = .ok k) :=
  ⟨by decide, by decide, by decide,
    fun h => absurd
      ((CDist_new_iff ⟨fun s => if s = "metric" then some "manhattan" else none⟩).1.mp h)
      (by decide)⟩

/-- C2, evaluated on `ma = 1`, `mb = 3`, `n = 1`, `A = [[0]]`, `B = [[0],[1],[2]]`
and the division `[0,1)`, `[1,2)`, `[2,3)` of `[0, 3)`.  The sequential
dispatcher gives `[0, 1, 4]`.  The worker body called on `[1, 2)`, a subrange
inside row 0 that starts at column 1, restarts its last loop at column 0: it
stores the metric of columns 0 and 1 at offsets 1 and 2.  With assertions
compiled in, its closing assertion fails; with `NDEBUG` the workers leave
`[0, 0, 4]`, and in whichever order the three subranges are run the output
differs from the sequential one. -/
theorem cdist_worker_split_row_diverges :
    IsDivision 0 (1 * 3) [(0, 1), (1, 2), (2, 3)] ∧
    cdist_single_threaded Sqeuclidean (⟨[0], 0⟩ : Ptr Int) ⟨[0, 1, 2], 0⟩ 0 1 3 1
      ⟨[7, 7, 7], []⟩
      = .ok ⟨[0, 1, 4],
          [⟨"Sqeuclidean", 0, 0, 0⟩, ⟨"Sqeuclidean", 0, 1, 1⟩, ⟨"Sqeuclidean", 0, 2, 2⟩]⟩ ∧
    cdist_worker true Sqeuclidean (⟨[0], 0⟩ : Ptr Int) ⟨[0, 1, 2], 0⟩ 0 1 3 1 1 2
      ⟨[7, 7, 7], []⟩
      = .ok ⟨[7, 0, 1], [⟨"Sqeuclidean", 0, 0, 1⟩, ⟨"Sqeuclidean", 0, 1, 2⟩]⟩ ∧
    cdist_worker false Sqeuclidean (⟨[0], 0⟩ : Ptr Int) ⟨[0, 1, 2], 0⟩ 0 1 3 1 1 2
      ⟨[7, 7, 7], []⟩ = .error Fault.assertFailed ∧
    cdist true Sqeuclidean (⟨[0], 0⟩ : Ptr Int) ⟨[0, 1, 2], 0⟩ 0 1 3 1
      (some ⟨2, fun _ _ _ => [(0, 1), (1, 2), (2, 3)]⟩) ⟨[7, 7, 7], []⟩
      = .ok ⟨[0, 0, 4],
          [⟨"Sqeuclidean", 0, 0, 0⟩, ⟨"Sqeuclidean", 0, 0, 1⟩, ⟨"Sqeuclidean", 0, 1, 2⟩,
           ⟨"Sqeuclidean", 0, 2, 2⟩]⟩ ∧
    cdist false Sqeuclidean (⟨[0], 0⟩ : Ptr Int) ⟨[0, 1, 2], 0⟩ 0 1 3 1
      (some ⟨2, fun _ _ _ => [(0, 1), (1, 2), (2, 3)]⟩) ⟨[7, 7, 7], []⟩
      = .error Fault.assertFailed ∧
    (∀ bs, bs ∈ [[(0, 1), (1, 2), (2, 3)], [(0, 1), (2, 3), (1, 2)], [(1, 2), (0, 1), (2, 3)],
        [(1, 2), (2, 3), (0, 1)], [(2, 3), (0, 1), (1, 2)], [(2, 3), (1, 2), (0, 1)]] →
      Except.map Out.mem
        (runBlocks (cdist_worker true Sqeuclidean (⟨[0], 0⟩ : Ptr Int) ⟨[0, 1, 2], 0⟩ 0 1 3 1)
          bs ⟨[7, 7, 7], []⟩) ≠ .ok [0, 1, 4]) := by
  refine ⟨by decide, by decide, by decide, by decide, by decide, by decide, by decide⟩

theorem forUntil_self {σ : Type} (hi : Nat) (body : Nat → σ → Except Fault σ) (s : σ) :
    forUntil hi body hi s = .ok s := by
  simp [forUntil, forUntilAux, pure, Except.pure]

/-- With no columns the sequential dispatcher runs its row loop over empty
column loops and returns the output as it found it -/
theorem cdist_single_threaded_no_columns {α : Type} (f : ElemFunc α) (a b : Ptr α)
    (dest ma n : Nat) (o : Out α) : cdist_single_threaded f a b dest ma 0 n o = .ok o := by
  obtain ⟨cur, hr, hI⟩ := forUntil_inv ma (fun i c => do
      let a1 := a.add (n * i)
      forUntil 0 (fun j c => do
        let b1 := b.add (n * j)
        emit f a1 b1 n i j c) 0 c)
    (fun _ cur => cur = (⟨o, dest⟩ : Cur α)) 0 (⟨o, dest⟩ : Cur α) (Nat.zero_le ma) rfl
    (fun i c _ _ hc => ⟨c, forUntil_self 0 _ c, hc⟩)
  have hc : cdist_single_threaded f a b dest ma 0 n o = (forUntil ma (fun i c => do
      let a1 := a.add (n * i)
      forUntil 0 (fun j c => do
        let b1 := b.add (n * j)
        emit f a1 b1 n i j c) 0 c) 0 (⟨o, dest⟩ : Cur α) >>= fun c => pure c.out) := rfl
  rw [hc, hr, hI]
  rfl

/-- C9, evaluated on `mb = 0`.  The worker body called on the empty range
`[0, 0)` computes `start / mb` first and divides by zero, whatever `ma`, `n`
and the inputs are, so `cdist` with a thread pool that calls the worker on
`[0, 0)` does not complete.  The other degenerate calls do complete and leave
the output, stores included, as they found it: `cdist` without a thread pool
for `mb = 0` and for `ma = 0`, and the worker body on `[0, 0)` for `ma = 0`
with at least one column. -/
theorem cdist_worker_no_columns_divides_by_zero {α : Type} (ndebug : Bool) (f : ElemFunc α)
    (a b : Ptr α) (dest ma mb n threads : Nat) (o : Out α) :
    cdist_worker ndebug f a b dest ma 0 n 0 0 o = .error Fault.divByZero ∧
    cdist ndebug f a b dest ma 0 n (some ⟨threads, fun _ _ _ => [(0, 0)]⟩) o
      = .error Fault.divByZero ∧
    cdist ndebug f a b dest ma 0 n none o = .ok o ∧
    cdist ndebug f a b dest 0 mb n none o = .ok o ∧
    cdist ndebug f a b dest 0 (mb + 1) n (some ⟨threads, fun _ _ _ => [(0, 0)]⟩) o = .ok o := by
  have hw : cdist_worker ndebug f a b dest ma 0 n 0 0 o = .error Fault.divByZero := by
    simp [cdist_worker, cDiv, bind, Except.bind, throw, throwThe, MonadExceptOf.throw]
  refine ⟨hw, ?_, ?_, ?_, ?_⟩
  · simp [cdist, parallelFor, runBlocks, hw, bind, Except.bind]
  · exact cdist_single_threaded_no_columns f a b dest ma n o
  · simp [cdist, cdist_single_threaded, forUntil_self, bind, Except.bind, pure, Except.pure]
  · simp [cdist, parallelFor, runBlocks, cdist_worker, cDiv, cAssert, forUntil_self, bind,
      Except.bind, pure, Except.pure]

/-! ## The functor recorded in the trace -/

theorem bind_ok_inv {ε β γ : Type} {x : Except ε β} {g : β → Except ε γ} {r : γ}
    (h : (x >>= g) = .ok r) : ∃ y, x = .ok y ∧ g y = .ok r := by
  cases x with
  | error e => simp [bind, Except.bind] at h
  | ok y => exact ⟨y, rfl, h⟩

theorem emit_traceBy {α : Type} (f : ElemFunc α) (a1 b1 : Ptr α) (n i j : Nat) (o : Out α)
    (c c1 : Cur α) (hP : TraceBy f.name o c.out) (h : emit f a1 b1 n i j c = .ok c1) :
    TraceBy f.name o c1.out := by
  unfold emit at h
  obtain ⟨v, _, h2⟩ := bind_ok_inv h
  by_cases hlt : c.pos < c.out.mem.length
  · simp only [hlt, if_true, pure, Except.pure, Except.ok.injEq] at h2
    subst h2
    intro e he
    simp only [List.mem_append, List.mem_singleton] at he
    rcases he with he | he
    · exact hP e he
    · exact Or.inr (by rw [he])
  · simp [hlt, throw, throwThe, MonadExceptOf.throw] at h2

theorem row_loop_traceBy {α : Type} (f : ElemFunc α) (a1 b : Ptr α) (n i hi x : Nat) (o : Out α)
    (c c1 : Cur α) (hP : TraceBy f.name o c.out)
    (h : forUntil hi (fun j c => do
      let b1 := b.add (n * j)
      emit f a1 b1 n i j c) x c = .ok c1) : TraceBy f.name o c1.out :=
  forUntil_preserves hi _ (fun c => TraceBy f.name o c.out)
    (fun j s s1 hs hb => emit_traceBy f a1 (b.add (n * j)) n i j o s s1 hs hb) x c c1 hP h

theorem cdist_single_threaded_traceBy {α : Type} (f : ElemFunc α) (a b : Ptr α)
    (dest ma mb n : Nat) (o o1 : Out α) (h : cdist_single_threaded f a b dest ma mb n o = .ok o1) :
    TraceBy f.name o o1 := by
  have hc : cdist_single_threaded f a b dest ma mb n o = (forUntil ma (fun i c => do
      let a1 := a.add (n * i)
      forUntil mb (fun j c => do
        let b1 := b.add (n * j)
        emit f a1 b1 n i j c) 0 c) 0 (⟨o, dest⟩ : Cur α) >>= fun c => pure c.out) := rfl
  rw [hc] at h
  obtain ⟨c, h1, h2⟩ := bind_ok_inv h
  have hP := forUntil_preserves ma _ (fun c => TraceBy f.name o c.out)
    (fun i s s1 hs hb => row_loop_traceBy f (a.add (n * i)) b n i mb 0 o s s1 hs hb)
    0 ⟨o, dest⟩ c (fun e he => Or.inl he) h1
  simp only [pure, Except.pure, Except.ok.injEq] at h2
  exact h2 ▸ hP

theorem cdist_worker_traceBy {α : Type} (ndebug : Bool) (f : ElemFunc α) (a b : Ptr α)
    (dest ma mb n start stop : Nat) (o0 o o1 : Out α) (hP : TraceBy f.name o0 o)
    (h : cdist_worker ndebug f a b dest ma mb n start stop o = .ok o1) :
    TraceBy f.name o0 o1 := by
  unfold cdist_worker at h
  obtain ⟨i, _, h⟩ := bind_ok_inv h
  obtain ⟨_, _, h⟩ := bind_ok_inv h
  obtain ⟨i_end, _, h⟩ := bind_ok_inv h
  obtain ⟨_, _, h⟩ := bind_ok_inv h
  obtain ⟨st, h1, h⟩ := bind_ok_inv h
  obtain ⟨c, h2, h⟩ := bind_ok_inv h
  obtain ⟨_, _, h⟩ := bind_ok_inv h
  have hP1 := forUntil_preserves i_end _ (fun (st : Nat × Cur α) => TraceBy f.name o0 st.2.out)
    (fun x s s1 hs hb => by
      obtain ⟨c2, hb1, hb2⟩ := bind_ok_inv hb
      simp only [pure, Except.pure, Except.ok.injEq] at hb2
      subst hb2
      exact row_loop_traceBy f (a.add (n * x)) b n x mb s.1 o0 s.2 c2 hs hb1)
    i (start - i * mb, ⟨o, dest + start⟩) st hP h1
  have hP2 := row_loop_traceBy f (a.add (n * i_end)) b n i_end (stop - i_end * mb) 0 o0 st.2 c
    hP1 h2
  simp only [pure, Except.pure, Except.ok.injEq] at h
  exact h ▸ hP2

theorem runBlocks_traceBy {α : Type} (ndebug : Bool) (f : ElemFunc α) (a b : Ptr α)
    (dest ma mb n : Nat) (o0 : Out α) :
    ∀ (bs : List (Nat × Nat)) (o o1 : Out α), TraceBy f.name o0 o →
      runBlocks (cdist_worker ndebug f a b dest ma mb n) bs o = .ok o1 → TraceBy f.name o0 o1 := by
  intro bs
  induction bs with
  | nil =>
    intro o o1 hP h
    simp only [runBlocks, pure, Except.pure, Except.ok.injEq] at h
    exact h ▸ hP
  | cons r rs ih =>
    intro o o1 hP h
    simp only [runBlocks] at h
    obtain ⟨o2, h1, h2⟩ := bind_ok_inv h
    exact ih o2 o1 (cdist_worker_traceBy ndebug f a b dest ma mb n r.1 r.2 o0 o o2 hP h1) h2

/-- Every store `cdist` records was made by the functor it was instantiated with -/
theorem cdist_traceBy {α : Type} (ndebug : Bool) (f : ElemFunc α) (a b : Ptr α)
    (dest ma mb n : Nat) (tp : Option ThreadPool) (o o1 : Out α)
    (h : cdist ndebug f a b dest ma mb n tp o = .ok o1) : TraceBy f.name o o1 := by
  cases tp with
  | none => exact cdist_single_threaded_traceBy f a b dest ma mb n o o1 h
  | some tp =>
    exact runBlocks_traceBy ndebug f a b dest ma mb n o _ o o1 (fun e he => Or.inl he) h

/-! ## The kernel -/

theorem shape_of_length_two (l : List Nat) (h : l.length = 2) :
    l = [l.getD 0 0, l.getD 1 0] := by
  match l, h with
  | [x, y], _ => rfl

/-- Past validation, with `mode_ == 0`, `Compute` is the call of `cdist`
instantiated with the functor chosen from the inner dimension, followed by the
return of `OK` -/
theorem Compute_valid {α : Type} [Ring α] (ndebug : Bool) (self : CDist)
    (context : OpKernelContext α) (ha : context.A.Shape.length = 2)
    (hb : context.B.Shape.length = 2)
    (hn : context.A.Shape.getD 1 0 = context.B.Shape.getD 1 0) (hmode : self.mode_ = 0) :
    CDist.Compute ndebug self context =
      (cdist ndebug
        (if 8 ≤ context.A.Shape.getD 1 0 then SqeuclideanWithEigen else Sqeuclidean)
        ⟨context.A.Data, 0⟩ ⟨context.B.Data, 0⟩ 0
        (context.A.Shape.getD 0 0) (context.B.Shape.getD 0 0) (context.A.Shape.getD 1 0)
        context.tp
        (context.Output [context.A.Shape.getD 0 0, context.B.Shape.getD 0 0]) >>= fun C1 =>
          pure (Status.OK, ⟨context.tp, context.A, context.B, context.fresh,
            some ([context.A.Shape.getD 0 0, context.B.Shape.getD 0 0], C1)⟩)) := by
  have hn1 : ¬ (context.A.Shape.getD 1 0 ≠ context.B.Shape.getD 1 0) := fun h => h hn
  have ha1 : ¬ (context.A.Shape.length ≠ 2) := fun h => h ha
  have hb1 : ¬ (context.B.Shape.length ≠ 2) := fun h => h hb
  unfold CDist.Compute
  simp only [if_neg ha1, if_neg hb1, if_neg hn1, if_pos hmode, ge_iff_le]
  by_cases h8 : 8 ≤ context.A.Shape.getD 1 0
  · simp only [if_pos h8]
  · simp only [if_neg h8]

/-- The sequential path returns for either metric on well-formed matrices -/
theorem cdist_sequential_returns {α : Type} [Ring α] (ndebug : Bool) (a b : List α)
    (ma mb n : Nat) (o : Out α) (ha : a.length = ma * n) (hb : b.length = mb * n)
    (hd : ma * mb ≤ o.mem.length) :
    ∃ o1, cdist ndebug (if 8 ≤ n then SqeuclideanWithEigen else Sqeuclidean)
      ⟨a, 0⟩ ⟨b, 0⟩ 0 ma mb n none o = .ok o1 := by
  have hpa : (⟨a, 0⟩ : Ptr α).off + ma * n ≤ (⟨a, 0⟩ : Ptr α).buf.length := by
    show 0 + ma * n ≤ a.length
    omega
  have hpb : (⟨b, 0⟩ : Ptr α).off + mb * n ≤ (⟨b, 0⟩ : Ptr α).buf.length := by
    show 0 + mb * n ≤ b.length
    omega
  by_cases h8 : 8 ≤ n
  · obtain ⟨cur, hr, _⟩ := cdist_single_threaded_filled SqeuclideanWithEigen
      (⟨a, 0⟩ : Ptr α) ⟨b, 0⟩ 0 ma mb n o
      (fun i j => sqdist_spec ((⟨a, 0⟩ : Ptr α).add (n * i)) ((⟨b, 0⟩ : Ptr α).add (n * j)) n)
      (fun i hi j hj => SqeuclideanWithEigen_call_eq _ _ n (row_in_bounds _ ma n i hi hpa)
        (row_in_bounds _ mb n j hj hpb)) (by omega)
    exact ⟨cur.out, by simpa [cdist, h8] using hr⟩
  · obtain ⟨cur, hr, _⟩ := cdist_single_threaded_sqeuclidean (⟨a, 0⟩ : Ptr α) ⟨b, 0⟩ 0 ma mb n o
      hpa hpb (by omega)
    exact ⟨cur.out, by simpa [cdist, h8] using hr⟩

/-- Validation: which status `Compute` returns on each of the three shape
errors, the context being handed back as it was -/
theorem Compute_invalid {α : Type} [Ring α] (ndebug : Bool) (self : CDist)
    (context : OpKernelContext α) :
    (context.A.Shape.length ≠ 2 →
      CDist.Compute ndebug self context
        = .ok (Status.FAIL "The first input of CDist kernel has wrong shape: ", context)) ∧
    (context.A.Shape.length = 2 → context.B.Shape.length ≠ 2 →
      CDist.Compute ndebug self context
        = .ok (Status.FAIL "The second input of CDist kernel has wrong shape: ", context)) ∧
    (context.A.Shape.length = 2 → context.B.Shape.length = 2 →
      context.A.Shape.getD 1 0 ≠ context.B.Shape.getD 1 0 →
      CDist.Compute ndebug self context
        = .ok (Status.FAIL "Input shape dimensions mismatch:", context)) := by
  refine ⟨fun h => ?_, fun h1 h => ?_, fun h1 h2 h => ?_⟩
  · unfold CDist.Compute
    simp only [if_pos h]
    rfl
  · have h1n : ¬ (context.A.Shape.length ≠ 2) := fun h => h h1
    unfold CDist.Compute
    simp only [if_neg h1n, if_pos h]
    rfl
  · have h1n : ¬ (context.A.Shape.length ≠ 2) := fun h => h h1
    have h2n : ¬ (context.B.Shape.length ≠ 2) := fun h => h h2
    unfold CDist.Compute
    simp only [if_neg h1n, if_neg h2n, if_pos h]
    rfl

/-- Past validation, with `mode_` other than `0`, `Compute` requests the output
and returns `OK` -/
theorem Compute_valid_other_mode {α : Type} [Ring α] (ndebug : Bool) (self : CDist)
    (context : OpKernelContext α) (ha : context.A.Shape.length = 2)
    (hb : context.B.Shape.length = 2)
    (hn : context.A.Shape.getD 1 0 = context.B.Shape.getD 1 0) (hmode : self.mode_ ≠ 0) :
    CDist.Compute ndebug self context =
      .ok (Status.OK, ⟨context.tp, context.A, context.B, context.fresh,
        some ([context.A.Shape.getD 0 0, context.B.Shape.getD 0 0],
          context.Output [context.A.Shape.getD 0 0, context.B.Shape.getD 0 0])⟩) := by
  have hn1 : ¬ (context.A.Shape.getD 1 0 ≠ context.B.Shape.getD 1 0) := fun h => h hn
  have ha1 : ¬ (context.A.Shape.length ≠ 2) := fun h => h ha
  have hb1 : ¬ (context.B.Shape.length ≠ 2) := fun h => h hb
  unfold CDist.Compute
  simp only [if_neg ha1, if_neg hb1, if_neg hn1, if_neg hmode]
  rfl

/-- Past validation the only status `Compute` returns is `OK`, and it returns
it with the output requested -/
theorem Compute_valid_status {α : Type} [Ring α] (ndebug : Bool) (self : CDist)
    (context : OpKernelContext α) (ha : context.A.Shape.length = 2)
    (hb : context.B.Shape.length = 2)
    (hn : context.A.Shape.getD 1 0 = context.B.Shape.getD 1 0)
    (st : Status) (c1 : OpKernelContext α)
    (h : CDist.Compute ndebug self context = .ok (st, c1)) :
    st = Status.OK ∧ ∃ o1, c1.output
      = some ([context.A.Shape.getD 0 0, context.B.Shape.getD 0 0], o1) := by
  by_cases hmode : self.mode_ = 0
  · rw [Compute_valid ndebug self context ha hb hn hmode] at h
    obtain ⟨o1, _, h2⟩ := bind_ok_inv h
    simp only [pure, Except.pure, Except.ok.injEq, Prod.mk.injEq] at h2
    exact ⟨h2.1.symm, o1, by rw [← h2.2]⟩
  · rw [Compute_valid_other_mode ndebug self context ha hb hn hmode] at h
    simp only [Except.ok.injEq, Prod.mk.injEq] at h
    exact ⟨h.1.symm, _, by rw [← h.2]⟩

theorem output_room {α : Type} (context : OpKernelContext α) (ma mb : Nat) :
    ma * mb ≤ (context.Output [ma, mb]).mem.length := by
  simp [OpKernelContext.Output, shapeSize]

theorem wellFormed_length {α : Type} (t : Tensor α) (h : t.WellFormed)
    (h2 : t.Shape.length = 2) : t.Data.length = t.Shape.getD 0 0 * t.Shape.getD 1 0 := by
  have hs := shape_of_length_two t.Shape h2
  unfold Tensor.WellFormed at h
  rw [h]
  generalize t.Shape.getD 0 0 = x at hs
  generalize t.Shape.getD 1 0 = y at hs
  rw [hs]
  simp [shapeSize]

/-- Validation in `Compute`.  It returns a failure status exactly when the
first input is not of rank 2, or the second is not, or the inner dimensions
differ, and then it hands the context back as it was: the output has not been
requested and no cell has been written.  In every other case `OK` is the only
status it returns, with the output requested; it returns `OK` exactly when the
`cdist` call it makes returns, and on well-formed tensors with no thread pool
that call does return. -/
theorem Compute_status {α : Type} [Ring α] (ndebug : Bool) (self : CDist)
    (context : OpKernelContext α) :
    ((context.A.Shape.length ≠ 2 ∨ context.B.Shape.length ≠ 2 ∨
        context.A.Shape.getD 1 0 ≠ context.B.Shape.getD 1 0) ↔
      ∃ msg, CDist.Compute ndebug self context = .ok (Status.FAIL msg, context)) ∧
    (∀ msg c1, CDist.Compute ndebug self context = .ok (Status.FAIL msg, c1) → c1 = context) ∧
    (¬ (context.A.Shape.length ≠ 2 ∨ context.B.Shape.length ≠ 2 ∨
        context.A.Shape.getD 1 0 ≠ context.B.Shape.getD 1 0) →
      (∀ st c1, CDist.Compute ndebug self context = .ok (st, c1) →
        st = Status.OK ∧ ∃ o1, c1.output
          = some ([context.A.Shape.getD 0 0, context.B.Shape.getD 0 0], o1)) ∧
      ((∃ c1, CDist.Compute ndebug self context = .ok (Status.OK, c1)) ↔
        (self.mode_ ≠ 0 ∨ ∃ o1, cdist ndebug
          (if 8 ≤ context.A.Shape.getD 1 0 then SqeuclideanWithEigen else Sqeuclidean)
          ⟨context.A.Data, 0⟩ ⟨context.B.Data, 0⟩ 0
          (context.A.Shape.getD 0 0) (context.B.Shape.getD 0 0) (context.A.Shape.getD 1 0)
          context.tp
          (context.Output [context.A.Shape.getD 0 0, context.B.Shape.getD 0 0]) = .ok o1)) ∧
      (context.tp = none → context.A.WellFormed → context.B.WellFormed →
        ∃ c1, CDist.Compute ndebug self context = .ok (Status.OK, c1))) := by
  obtain ⟨hi1, hi2, hi3⟩ := Compute_invalid ndebug self context
  have hvalid : ∀ msg c1, CDist.Compute ndebug self context = .ok (Status.FAIL msg, c1) →
      context.A.Shape.length ≠ 2 ∨ context.B.Shape.length ≠ 2 ∨
        context.A.Shape.getD 1 0 ≠ context.B.Shape.getD 1 0 := by
    intro msg c1 h
    by_contra hv
    simp only [not_or, not_not] at hv
    have := (Compute_valid_status ndebug self context hv.1 hv.2.1 hv.2.2 _ _ h).1
    exact Status.noConfusion this
  have hback : ∀ msg c1, CDist.Compute ndebug self context = .ok (Status.FAIL msg, c1) →
      c1 = context := by
    intro msg c1 h
    by_cases h1 : context.A.Shape.length ≠ 2
    · rw [hi1 h1] at h
      simp only [Except.ok.injEq, Prod.mk.injEq] at h
      exact h.2.symm
    · simp only [not_not] at h1
      by_cases h2 : context.B.Shape.length ≠ 2
      · rw [hi2 h1 h2] at h
        simp only [Except.ok.injEq, Prod.mk.injEq] at h
        exact h.2.symm
      · simp only [not_not] at h2
        by_cases h3 : context.A.Shape.getD 1 0 ≠ context.B.Shape.getD 1 0
        · rw [hi3 h1 h2 h3] at h
          simp only [Except.ok.injEq, Prod.mk.injEq] at h
          exact h.2.symm
        · refine absurd (hvalid msg c1 h) ?_
          simp only [not_or]
          exact ⟨by simpa using h1, by simpa using h2, h3⟩
  refine ⟨⟨?_, fun ⟨msg, h⟩ => hvalid msg context h⟩, hback, ?_⟩
  · intro hbad
    by_cases h1 : context.A.Shape.length ≠ 2
    · exact ⟨_, hi1 h1⟩
    · simp only [not_not] at h1
      by_cases h2 : context.B.Shape.length ≠ 2
      · exact ⟨_, hi2 h1 h2⟩
      · simp only [not_not] at h2
        rcases hbad with h | h | h
        · exact absurd h1 h
        · exact absurd h2 h
        · exact ⟨_, hi3 h1 h2 h⟩
  · intro hv
    simp only [not_or, not_not] at hv
    obtain ⟨ha, hb, hn⟩ := hv
    refine ⟨fun st c1 h => Compute_valid_status ndebug self context ha hb hn st c1 h, ?_, ?_⟩
    · by_cases hmode : self.mode_ = 0
      · rw [Compute_valid ndebug self context ha hb hn hmode]
        constructor
        · rintro ⟨c1, h⟩
          obtain ⟨o1, h1, _⟩ := bind_ok_inv h
          exact Or.inr ⟨o1, h1⟩
        · rintro (h | ⟨o1, h1⟩)
          · exact absurd hmode h
          · rw [h1]
            exact ⟨_, rfl⟩
      · rw [Compute_valid_other_mode ndebug self context ha hb hn hmode]
        exact ⟨fun _ => Or.inl hmode, fun _ => ⟨_, rfl⟩⟩
    · intro htp hwa hwb
      by_cases hmode : self.mode_ = 0
      · rw [Compute_valid ndebug self context ha hb hn hmode, htp]
        have hlb := wellFormed_length context.B hwb hb
        rw [← hn] at hlb
        obtain ⟨o1, h1⟩ := cdist_sequential_returns ndebug context.A.Data context.B.Data
          (context.A.Shape.getD 0 0) (context.B.Shape.getD 0 0) (context.A.Shape.getD 1 0)
          (context.Output [context.A.Shape.getD 0 0, context.B.Shape.getD 0 0])
          (wellFormed_length context.A hwa ha) hlb (output_room context _ _)
        rw [h1]
        exact ⟨_, rfl⟩
      · rw [Compute_valid_other_mode ndebug self context ha hb hn hmode]
        exact ⟨_, rfl⟩

/-- Validation on `A` of shape `(2,3)` and `B` of shape `(2,4)`: the failure
status is returned and the output slot is still empty -/
theorem Compute_status_witness :
    ((2 : Nat) ≠ 2 ∨ (2 : Nat) ≠ 2 ∨ (3 : Nat) ≠ 4) ∧
    (∃ msg, CDist.Compute false ⟨0⟩
        (⟨none, ⟨[2, 3], [1, 2, 3, 4, 5, 6]⟩, ⟨[2, 4], [1, 2, 3, 4, 5, 6, 7, 8]⟩,
          fun _ => 0, none⟩ : OpKernelContext Int)
      = .ok (Status.FAIL msg,
        ⟨none, ⟨[2, 3], [1, 2, 3, 4, 5, 6]⟩, ⟨[2, 4], [1, 2, 3, 4, 5, 6, 7, 8]⟩,
          fun _ => 0, none⟩)) ∧
    Except.map (fun r => (r.1, r.2.output))
      (CDist.Compute false ⟨0⟩
        (⟨none, ⟨[2, 3], [1, 2, 3, 4, 5, 6]⟩, ⟨[2, 4], [1, 2, 3, 4, 5, 6, 7, 8]⟩,
          fun _ => 0, none⟩ : OpKernelContext Int))
      = .ok (Status.FAIL "Input shape dimensions mismatch:", none) ∧
    Except.map (fun r => (r.1, r.2.output))
      (CDist.Compute false ⟨0⟩
        (⟨none, ⟨[2, 2], [0, 0, 3, 4]⟩, ⟨[1, 2], [0, 0]⟩, fun _ => 7, none⟩ :
          OpKernelContext Int))
      = .ok (Status.OK, some ([2, 1],
          ⟨[0, 25], [⟨"Sqeuclidean", 0, 0, 0⟩, ⟨"Sqeuclidean", 1, 0, 1⟩]⟩)) :=
  ⟨by decide,
    (Compute_status false ⟨0⟩
      (⟨none, ⟨[2, 3], [1, 2, 3, 4, 5, 6]⟩, ⟨[2, 4], [1, 2, 3, 4, 5, 6, 7, 8]⟩,
        fun _ => 0, none⟩ : OpKernelContext Int)).1.mp (by decide),
    by decide, by decide⟩

/-- C6: metric selection depends only on the vector length.  For validated
inputs with `n = shape_a[1]`, `Compute` (of a constructed kernel, `mode_ == 0`)
is one call of `cdist`, instantiated with `SqeuclideanWithEigen` when `n ≥ 8`
and with `Sqeuclidean` when `n < 8`, followed by the return of `OK`; and every
store of that call is made by the functor so chosen: by `SqeuclideanWithEigen`
exactly when `n ≥ 8`, by `Sqeuclidean` exactly when `n < 8`. -/
theorem Compute_selects_metric {α : Type} [Ring α] (ndebug : Bool) (self : CDist)
    (context : OpKernelContext α) (ha : context.A.Shape.length = 2)
    (hb : context.B.Shape.length = 2)
    (hn : context.A.Shape.getD 1 0 = context.B.Shape.getD 1 0) (hmode : self.mode_ = 0) :
    CDist.Compute ndebug self context =
      (cdist ndebug
        (if 8 ≤ context.A.Shape.getD 1 0 then SqeuclideanWithEigen else Sqeuclidean)
        ⟨context.A.Data, 0⟩ ⟨context.B.Data, 0⟩ 0
        (context.A.Shape.getD 0 0) (context.B.Shape.getD 0 0) (context.A.Shape.getD 1 0)
        context.tp
        (context.Output [context.A.Shape.getD 0 0, context.B.Shape.getD 0 0]) >>= fun C1 =>
          pure (Status.OK, ⟨context.tp, context.A, context.B, context.fresh,
            some ([context.A.Shape.getD 0 0, context.B.Shape.getD 0 0], C1)⟩)) ∧
    ∀ st c1 shape o1, CDist.Compute ndebug self context = .ok (st, c1) →
      c1.output = some (shape, o1) →
      ∀ e, e ∈ o1.trace →
        (e.fn = "SqeuclideanWithEigen" ↔ 8 ≤ context.A.Shape.getD 1 0) ∧
        (e.fn = "Sqeuclidean" ↔ context.A.Shape.getD 1 0 < 8) := by
  have hv := Compute_valid ndebug self context ha hb hn hmode
  refine ⟨hv, ?_⟩
  intro st c1 shape o1 h hout e he
  rw [hv] at h
  obtain ⟨o2, h1, h2⟩ := bind_ok_inv h
  simp only [pure, Except.pure, Except.ok.injEq, Prod.mk.injEq] at h2
  rw [← h2.2] at hout
  simp only [Option.some.injEq, Prod.mk.injEq] at hout
  rw [← hout.2] at he
  have ht := cdist_traceBy ndebug _ _ _ _ _ _ _ _ _ _ h1 e he
  have hemp : e ∉ (context.Output [context.A.Shape.getD 0 0, context.B.Shape.getD 0 0]).trace := by
    simp [OpKernelContext.Output]
  have hfn := ht.resolve_left hemp
  by_cases h8 : 8 ≤ context.A.Shape.getD 1 0
  · simp only [h8, if_true] at hfn
    have hname : e.fn = "SqeuclideanWithEigen" := hfn
    rw [hname]
    exact ⟨⟨fun _ => h8, fun _ => rfl⟩, ⟨fun h => absurd h (by decide), fun h => by omega⟩⟩
  · simp only [h8, if_false] at hfn
    have hname : e.fn = "Sqeuclidean" := hfn
    rw [hname]
    exact ⟨⟨fun h => absurd h (by decide), fun h => absurd h h8⟩, ⟨fun _ => by omega, fun _ => rfl⟩⟩

/-- C6, on vectors of length 8 and of length 7 -/
theorem Compute_selects_metric_witness :
    ([1, 8] : List Nat).length = 2 ∧ ([2, 8] : List Nat).length = 2 ∧
    ([1, 8] : List Nat).getD 1 0 = ([2, 8] : List Nat).getD 1 0 ∧
    (⟨0⟩ : CDist).mode_ = 0 ∧
    Except.map (fun r => (r.1, r.2.output))
      (CDist.Compute false ⟨0⟩
        (⟨none, ⟨[1, 8], [1, 2, 3, 4, 5, 6, 7, 8]⟩,
          ⟨[2, 8], [0, 0, 0, 0, 0, 0, 0, 0, 1, 2, 3, 4, 5, 6, 7, 8]⟩, fun _ => 7, none⟩ :
          OpKernelContext Int))
      = .ok (Status.OK, some ([1, 2],
          ⟨[204, 0], [⟨"SqeuclideanWithEigen", 0, 0, 0⟩, ⟨"SqeuclideanWithEigen", 0, 1, 1⟩]⟩)) ∧
    Except.map (fun r => (r.1, r.2.output))
      (CDist.Compute false ⟨0⟩
        (⟨none, ⟨[1, 7], [1, 2, 3, 4, 5, 6, 7]⟩,
          ⟨[2, 7], [0, 0, 0, 0, 0, 0, 0, 1, 2, 3, 4, 5, 6, 7]⟩, fun _ => 7, none⟩ :
          OpKernelContext Int))
      = .ok (Status.OK, some ([1, 2],
          ⟨[140, 0], [⟨"Sqeuclidean", 0, 0, 0⟩, ⟨"Sqeuclidean", 0, 1, 1⟩]⟩)) ∧
    ∀ st c1 shape o1,
      CDist.Compute false ⟨0⟩
        (⟨none, ⟨[1, 8], [1, 2, 3, 4, 5, 6, 7, 8]⟩,
          ⟨[2, 8], [0, 0, 0, 0, 0, 0, 0, 0, 1, 2, 3, 4, 5, 6, 7, 8]⟩, fun _ => 7, none⟩ :
          OpKernelContext Int) = .ok (st, c1) →
      c1.output = some (shape, o1) →
      ∀ e, e ∈ o1.trace →
        (e.fn = "SqeuclideanWithEigen" ↔ 8 ≤ ([1, 8] : List Nat).getD 1 0) ∧
        (e.fn = "Sqeuclidean" ↔ ([1, 8] : List Nat).getD 1 0 < 8) :=
  ⟨by decide, by decide, by decide, by decide, by decide, by decide,
    (Compute_selects_metric false ⟨0⟩
      (⟨none, ⟨[1, 8], [1, 2, 3, 4, 5, 6, 7, 8]⟩,
        ⟨[2, 8], [0, 0, 0, 0, 0, 0, 0, 0, 1, 2, 3, 4, 5, 6, 7, 8]⟩, fun _ => 7, none⟩ :
        OpKernelContext Int) (by decide) (by decide) (by decide) (by decide)).2⟩

/-! ## The worker body -/

theorem cDiv_ok (x y : Nat) (hy : 0 < y) : cDiv x y = .ok (x / y) := by
  simp [cDiv, Nat.pos_iff_ne_zero.mp hy, pure, Except.pure]

theorem decode_sub (x mb : Nat) : x - x / mb * mb = x % mb := by
  have h := Nat.div_add_mod x mb
  rw [Nat.mul_comm] at h
  omega

theorem decode_assert (ndebug : Bool) (x mb : Nat) :
    cAssert ndebug (x / mb * mb + (x - x / mb * mb) == x) = .ok () := by
  have h := Nat.div_add_mod x mb
  rw [Nat.mul_comm] at h
  have he : x / mb * mb + (x - x / mb * mb) = x := by omega
  simp [cAssert, he, pure, Except.pure]

/-- With at least one column the two divisions and the two assertions on the
decoded bounds pass, and the worker body is its two loops followed by the
closing assertion -/
theorem cdist_worker_eq {α : Type} (ndebug : Bool) (f : ElemFunc α) (a b : Ptr α)
    (dest ma mb n start stop : Nat) (o : Out α) (hmb : 0 < mb) :
    cdist_worker ndebug f a b dest ma mb n start stop o =
      (forUntil (stop / mb) (fun i (st : Nat × Cur α) => do
          let a1 := a.add (n * i)
          let c ← forUntil mb (fun j c => do
            let b1 := b.add (n * j)
            emit f a1 b1 n i j c) st.1 st.2
          pure (0, c)) (start / mb) (start % mb, (⟨o, dest + start⟩ : Cur α)) >>= fun st =>
        forUntil (stop % mb) (fun j c => do
          let b1 := b.add (n * j)
          emit f (a.add (n * (stop / mb))) b1 n (stop / mb) j c) 0 st.2 >>= fun c =>
        cAssert ndebug (c.pos == dest + stop) >>= fun _ => pure c.out) := by
  have hc : cdist_worker ndebug f a b dest ma mb n start stop o =
      (cDiv start mb >>= fun i =>
        cAssert ndebug (i * mb + (start - i * mb) == start) >>= fun _ =>
        cDiv stop mb >>= fun i_end =>
        cAssert ndebug (i_end * mb + (stop - i_end * mb) == stop) >>= fun _ =>
        forUntil i_end (fun i (st : Nat × Cur α) => do
          let a1 := a.add (n * i)
          let c ← forUntil mb (fun j c => do
            let b1 := b.add (n * j)
            emit f a1 b1 n i j c) st.1 st.2
          pure (0, c)) i (start - i * mb, (⟨o, dest + start⟩ : Cur α)) >>= fun st =>
        forUntil (stop - i_end * mb) (fun j c => do
          let b1 := b.add (n * j)
          emit f (a.add (n * i_end)) b1 n i_end j c) 0 st.2 >>= fun c =>
        cAssert ndebug (c.pos == dest + stop) >>= fun _ => pure c.out) := rfl
  rw [hc, cDiv_ok start mb hmb, cDiv_ok stop mb hmb]
  show (cAssert ndebug (start / mb * mb + (start - start / mb * mb) == start) >>= fun _ =>
    cAssert ndebug (stop / mb * mb + (stop - stop / mb * mb) == stop) >>= fun _ => _) = _
  rw [decode_assert, decode_assert, decode_sub, decode_sub]
  rfl

/-- A column loop over row `i`, entered at column `x` with `c` cells filled,
returns with `c + (hi - x)` cells filled -/
theorem row_loop_filled {α : Type} (f : ElemFunc α) (a1 b : Ptr α) (n i hi x : Nat)
    (ev : Nat → Ev) (val : Nat → α) (o : Out α) (p0 c : Nat) (cur : Cur α) (hx : x ≤ hi)
    (hF : FilledTo ev val o p0 c cur)
    (hcall : ∀ j, x ≤ j → j < hi → f.call a1 (b.add (n * j)) n = .ok (val (c + (j - x))))
    (hev : ∀ j, x ≤ j → j < hi → ev (c + (j - x)) = ⟨f.name, i, j, p0 + (c + (j - x))⟩)
    (hroom : p0 + c + (hi - x) ≤ o.mem.length) :
    ∃ cur1, forUntil hi (fun j c => do
        let b1 := b.add (n * j)
        emit f a1 b1 n i j c) x cur = .ok cur1 ∧
      FilledTo ev val o p0 (c + (hi - x)) cur1 := by
  refine forUntil_inv hi _ (fun j cur => FilledTo ev val o p0 (c + (j - x)) cur) x cur hx
    (by simpa using hF) ?_
  intro j t hxj hj hI
  have hI1 : FilledTo ev val o p0 (c + (j - x)) t := hI
  obtain ⟨t1, ht1, hF1⟩ := emit_filled f a1 (b.add (n * j)) n i j ev val o p0 (c + (j - x)) t
    hI1 (hcall j hxj hj) (hev j hxj hj) (by omega)
  refine ⟨t1, ht1, ?_⟩
  show FilledTo ev val o p0 (c + (j + 1 - x)) t1
  have he : c + (j + 1 - x) = c + (j - x) + 1 := by omega
  rw [he]
  exact hF1

theorem div_mod_of_eq (mb i j x : Nat) (hj : j < mb) (h : x = i * mb + j) :
    x / mb = i ∧ x % mb = j := by
  subst h
  exact div_mod_cell mb i j hj

theorem div_lt_of_lt_mul (x ma mb : Nat) (h : x < ma * mb) : x / mb < ma := by
  rw [Nat.mul_comm] at h
  exact Nat.div_lt_of_lt_mul h

/-- The row loop of the worker body, entered at the decoded start `(i0, j0)`:
it returns; when the subrange lies in one row nothing has been stored and `j`
is still `j0`; otherwise `j` is `0` and the cells from `start` up to the
beginning of row `i_end` are filled. -/
theorem worker_rows_filled {α : Type} (f : ElemFunc α) (a b : Ptr α) (dest ma mb n : Nat)
    (start stop : Nat) (o : Out α) (v : Nat → Nat → α) (hmb : 0 < mb) (hse : start ≤ stop)
    (hem : stop ≤ ma * mb)
    (hf : ∀ i, i < ma → ∀ j, j < mb → f.call (a.add (n * i)) (b.add (n * j)) n = .ok (v i j))
    (hroom : dest + stop ≤ o.mem.length) :
    ∃ st, forUntil (stop / mb) (fun i (st : Nat × Cur α) => do
        let a1 := a.add (n * i)
        let c ← forUntil mb (fun j c => do
          let b1 := b.add (n * j)
          emit f a1 b1 n i j c) st.1 st.2
        pure (0, c)) (start / mb) (start % mb, (⟨o, dest + start⟩ : Cur α)) = .ok st ∧
      ((start / mb = stop / mb ∧ st = (start % mb, (⟨o, dest + start⟩ : Cur α))) ∨
        (start / mb < stop / mb ∧ st.1 = 0 ∧ ∃ c, start + c = stop / mb * mb ∧
          FilledTo (fun k => ⟨f.name, (start + k) / mb, (start + k) % mb, dest + start + k⟩)
            (fun k => v ((start + k) / mb) ((start + k) % mb)) o (dest + start) c st.2)) := by
  by_cases hrow : start / mb = stop / mb
  · refine ⟨(start % mb, ⟨o, dest + start⟩), ?_, Or.inl ⟨hrow, rfl⟩⟩
    rw [hrow]
    exact forUntil_self _ _ _
  · have hle : start / mb ≤ stop / mb := Nat.div_le_div_right hse
    have hlt : start / mb < stop / mb := lt_of_le_of_ne hle hrow
    have hend : stop / mb * mb ≤ stop := Nat.div_mul_le_self stop mb
    have hstart : start = start / mb * mb + start % mb := by
      have h := Nat.div_add_mod start mb
      rw [Nat.mul_comm] at h
      omega
    have hj0 : start % mb < mb := Nat.mod_lt _ hmb
    obtain ⟨st, hr, hI⟩ := forUntil_inv (stop / mb) (fun i (st : Nat × Cur α) => do
        let a1 := a.add (n * i)
        let c ← forUntil mb (fun j c => do
          let b1 := b.add (n * j)
          emit f a1 b1 n i j c) st.1 st.2
        pure (0, c))
      (fun i (st : Nat × Cur α) =>
        ((i = start / mb ∧ st.1 = start % mb) ∨ (start / mb < i ∧ st.1 = 0)) ∧
        ∃ c, start + c = i * mb + st.1 ∧
          FilledTo (fun k => ⟨f.name, (start + k) / mb, (start + k) % mb, dest + start + k⟩)
            (fun k => v ((start + k) / mb) ((start + k) % mb)) o (dest + start) c st.2)
      (start / mb) (start % mb, ⟨o, dest + start⟩) hle
      ⟨Or.inl ⟨rfl, rfl⟩, 0, by simpa using hstart, FilledTo.start _ _ o (dest + start)⟩
      (fun i st hi0 hie hIi => by
        obtain ⟨hj, c, hc, hF⟩ := hIi
        have hjlt : st.1 < mb := by
          rcases hj with ⟨_, h⟩ | ⟨_, h⟩
          · rw [h]; exact hj0
          · rw [h]; exact hmb
        have hrowle : (i + 1) * mb ≤ stop / mb * mb := Nat.mul_le_mul_right mb hie
        have hsucc : (i + 1) * mb = i * mb + mb := by rw [Nat.add_mul, Nat.one_mul]
        have hima : i < ma := by
          have h1 : i * mb + mb ≤ ma * mb := by omega
          by_contra hcon
          have h2 : ma * mb ≤ i * mb := Nat.mul_le_mul_right mb (by omega)
          omega
        obtain ⟨c1, hr1, hF1⟩ := row_loop_filled f (a.add (n * i)) b n i mb st.1 _ _ o
          (dest + start) c st.2 (le_of_lt hjlt) hF
          (fun j hxj hjm => by
            have hdm := div_mod_of_eq mb i j (start + (c + (j - st.1))) hjm (by omega)
            simp only [hdm.1, hdm.2]
            exact hf i hima j hjm)
          (fun j hxj hjm => by
            have hdm := div_mod_of_eq mb i j (start + (c + (j - st.1))) hjm (by omega)
            simp only [hdm.1, hdm.2])
          (by omega)
        refine ⟨(0, c1), ?_, Or.inr ⟨by omega, rfl⟩, c + (mb - st.1), ?_, hF1⟩
        · show (do
            let c ← forUntil mb (fun j c => do
              let b1 := b.add (n * j)
              emit f (a.add (n * i)) b1 n i j c) st.1 st.2
            pure (0, c)) = Except.ok (0, c1)
          rw [hr1]
          rfl
        · show start + (c + (mb - st.1)) = (i + 1) * mb + 0
          omega)
    refine ⟨st, hr, Or.inr ⟨hlt, ?_⟩⟩
    obtain ⟨hj, c, hc, hF⟩ := hI
    have hz : st.1 = 0 := by
      rcases hj with ⟨h, _⟩ | ⟨_, h⟩
      · omega
      · exact h
    exact ⟨hz, c, by omega, hF⟩

theorem ok_bind {ε β γ : Type} (x : β) (g : β → Except ε γ) :
    (Except.ok x >>= g) = g x := rfl

theorem cAssert_pos (ndebug : Bool) (p q : Nat) (h : p = q) :
    cAssert ndebug (p == q) = .ok () := by
  simp [cAssert, h, pure, Except.pure]

/-- The worker body on a subrange that spans several rows or starts at the
beginning of a row: it returns, whether or not assertions are compiled in, and
its `k`-th store leaves the metric of row `(start + k) / mb` of `a` and row
`(start + k) % mb` of `b` at offset `dest + start + k`, for `k < end - start`. -/
theorem cdist_worker_filled {α : Type} (ndebug : Bool) (f : ElemFunc α) (a b : Ptr α)
    (dest ma mb n start stop : Nat) (o : Out α) (v : Nat → Nat → α) (hmb : 0 < mb)
    (hse : start ≤ stop) (hem : stop ≤ ma * mb)
    (hcase : start / mb < stop / mb ∨ start % mb = 0)
    (hf : ∀ i, i < ma → ∀ j, j < mb → f.call (a.add (n * i)) (b.add (n * j)) n = .ok (v i j))
    (hroom : dest + stop ≤ o.mem.length) :
    ∃ cur, cdist_worker ndebug f a b dest ma mb n start stop o = .ok cur.out ∧
      FilledTo (fun k => ⟨f.name, (start + k) / mb, (start + k) % mb, dest + start + k⟩)
        (fun k => v ((start + k) / mb) ((start + k) % mb)) o (dest + start) (stop - start)
        cur := by
  have hend : stop = stop / mb * mb + stop % mb := by
    have h := Nat.div_add_mod stop mb
    rw [Nat.mul_comm] at h
    omega
  have hstart : start = start / mb * mb + start % mb := by
    have h := Nat.div_add_mod start mb
    rw [Nat.mul_comm] at h
    omega
  have hje : stop % mb < mb := Nat.mod_lt _ hmb
  obtain ⟨st, hr, hst⟩ := worker_rows_filled f a b dest ma mb n start stop o v hmb hse hem hf hroom
  -- in both cases the cells up to the beginning of row `i_end` are filled
  have hpre : ∃ c, start + c = stop / mb * mb ∧
      FilledTo (fun k => ⟨f.name, (start + k) / mb, (start + k) % mb, dest + start + k⟩)
        (fun k => v ((start + k) / mb) ((start + k) % mb)) o (dest + start) c st.2 := by
    rcases hst with ⟨hrow, hst0⟩ | ⟨_, _, hc⟩
    · have hz : start % mb = 0 := by
        rcases hcase with h | h
        · omega
        · exact h
      refine ⟨0, ?_, ?_⟩
      · rw [← hrow]
        omega
      · rw [hst0]
        exact FilledTo.start _ _ o (dest + start)
    · exact hc
  obtain ⟨c, hc, hF⟩ := hpre
  obtain ⟨cur, hr2, hF2⟩ := row_loop_filled f (a.add (n * (stop / mb))) b n (stop / mb)
    (stop % mb) 0 _ _ o (dest + start) c st.2 (Nat.zero_le _) hF
    (fun j _ hj => by
      have hdm := div_mod_of_eq mb (stop / mb) j (start + (c + (j - 0))) (by omega) (by omega)
      simp only [hdm.1, hdm.2]
      have hima : stop / mb < ma := div_lt_of_lt_mul stop ma mb (by
        by_contra hcon
        have h1 : ma * mb ≤ stop / mb * mb := by
          have h2 : ma * mb = stop := by omega
          rw [← h2, Nat.mul_div_cancel _ hmb]
        omega)
      exact hf _ hima j (by omega))
    (fun j _ hj => by
      have hdm := div_mod_of_eq mb (stop / mb) j (start + (c + (j - 0))) (by omega) (by omega)
      simp only [hdm.1, hdm.2])
    (by omega)
  have hcount : c + (stop % mb - 0) = stop - start := by omega
  rw [hcount] at hF2
  refine ⟨cur, ?_, hF2⟩
  rw [cdist_worker_eq ndebug f a b dest ma mb n start stop o hmb, hr, ok_bind, hr2, ok_bind,
    cAssert_pos ndebug _ _ (by rw [hF2.1]; omega), ok_bind]
  rfl

/-- The worker body on a subrange that lies inside one row, with assertions
compiled out: it returns, having stored the metric of columns `0`, `1`, ...,
`j_end - 1` of that row at the offsets `dest + start`, `dest + start + 1`, ... -/
theorem cdist_worker_single_row {α : Type} (f : ElemFunc α) (a b : Ptr α)
    (dest ma mb n start stop : Nat) (o : Out α) (v : Nat → Nat → α) (hmb : 0 < mb)
    (hem : stop ≤ ma * mb) (hrow : start / mb = stop / mb)
    (hf : ∀ i, i < ma → ∀ j, j < mb → f.call (a.add (n * i)) (b.add (n * j)) n = .ok (v i j))
    (hroom : dest + start + stop % mb ≤ o.mem.length) :
    ∃ cur, cdist_worker true f a b dest ma mb n start stop o = .ok cur.out ∧
      FilledTo (fun k => ⟨f.name, stop / mb, k, dest + start + k⟩) (fun k => v (stop / mb) k)
        o (dest + start) (stop % mb) cur := by
  have hend : stop = stop / mb * mb + stop % mb := by
    have h := Nat.div_add_mod stop mb
    rw [Nat.mul_comm] at h
    omega
  have hje : stop % mb < mb := Nat.mod_lt _ hmb
  obtain ⟨cur, hr2, hF2⟩ := row_loop_filled f (a.add (n * (stop / mb))) b n (stop / mb)
    (stop % mb) 0 (fun k => ⟨f.name, stop / mb, k, dest + start + k⟩) (fun k => v (stop / mb) k)
    o (dest + start) 0 ⟨o, dest + start⟩ (Nat.zero_le _) (FilledTo.start _ _ o (dest + start))
    (fun j _ hj => by
      have hima : stop / mb < ma := div_lt_of_lt_mul stop ma mb (by
        by_contra hcon
        have h1 : ma * mb ≤ stop / mb * mb := by
          have h2 : ma * mb = stop := by omega
          rw [← h2, Nat.mul_div_cancel _ hmb]
        omega)
      simpa using hf _ hima j (by omega))
    (fun j _ _ => by simp)
    (by omega)
  simp only [Nat.zero_add, Nat.sub_zero] at hF2
  refine ⟨cur, ?_, hF2⟩
  rw [cdist_worker_eq true f a b dest ma mb n start stop o hmb, hrow, forUntil_self, ok_bind]
  show (forUntil (stop % mb) (fun j c => do
      let b1 := b.add (n * j)
      emit f (a.add (n * (stop / mb))) b1 n (stop / mb) j c) 0 ⟨o, dest + start⟩ >>= _) = _
  rw [hr2, ok_bind]
  rfl

/-- Two destination states filled alike from the same output are equal -/
theorem FilledTo.unique {α : Type} (ev : Nat → Ev) (val : Nat → α) (o : Out α) (p0 c : Nat)
    (cur1 cur2 : Cur α) (h1 : FilledTo ev val o p0 c cur1) (h2 : FilledTo ev val o p0 c cur2) :
    cur1 = cur2 := by
  obtain ⟨hp1, ht1, _, hc1, hr1⟩ := h1
  obtain ⟨hp2, ht2, _, hc2, hr2⟩ := h2
  have hmem : cur1.out.mem = cur2.out.mem := by
    apply List.ext_getElem?
    intro q
    by_cases hq : q < p0 ∨ p0 + c ≤ q
    · rw [hr1 q hq, hr2 q hq]
    · have hk : q = p0 + (q - p0) := by omega
      rw [hk, hc1 (q - p0) (by omega), hc2 (q - p0) (by omega)]
  cases cur1 with
  | mk out1 pos1 =>
    cases cur2 with
    | mk out2 pos2 =>
      cases out1 with
      | mk mem1 trace1 =>
        cases out2 with
        | mk mem2 trace2 =>
          simp only at hp1 hp2 ht1 ht2 hmem
          rw [hp1, hp2, ht1, ht2, hmem]

theorem sqdist_spec_comm {α : Type} [Ring α] (a b : Ptr α) (n : Nat) :
    sqdist_spec a b n = sqdist_spec b a n := by
  unfold sqdist_spec
  congr 1
  apply List.map_congr_left
  intro k _
  rw [← neg_sub, neg_sq]

theorem cell_lt (ma mb i j : Nat) (hi : i < ma) (hj : j < mb) : i * mb + j < ma * mb := by
  have h1 : (i + 1) * mb ≤ ma * mb := Nat.mul_le_mul_right mb hi
  rw [Nat.add_mul, Nat.one_mul] at h1
  omega

/-- C11: with no executor the parallel entry point is the sequential one.
For every metric, inputs and dimensions, `cdist` with a null thread pool is
`cdist_single_threaded` on the same arguments: the same outcome, the same
output memory and the same record of stores, whether or not assertions are
compiled in; no thread pool is there to be consulted. -/
theorem cdist_null_pool_is_sequential {α : Type} (ndebug : Bool) (f : ElemFunc α) (a b : Ptr α)
    (dest ma mb n : Nat) (o : Out α) :
    cdist ndebug f a b dest ma mb n none o = cdist_single_threaded f a b dest ma mb n o :=
  rfl

/-- C18: linear-index decoding is exact.  For `mb > 0` and every index `x` the
division returns, the pair `i = x / mb`, `j = x - i * mb` has `j = x % mb`,
`j < mb` and `i * mb + j = x`, and the assertion the worker makes on a decoded
bound passes, with assertions compiled in or not. -/
theorem decode_exact (mb x : Nat) (hmb : 0 < mb) :
    cDiv x mb = .ok (x / mb) ∧
    x - x / mb * mb = x % mb ∧
    x - x / mb * mb < mb ∧
    x / mb * mb + (x - x / mb * mb) = x ∧
    (∀ ndebug, (do
      let i ← cDiv x mb
      let j := x - i * mb
      cAssert ndebug (i * mb + j == x)
      pure (i, j)) = Except.ok (x / mb, x % mb)) := by
  have hsub := decode_sub x mb
  have hlt : x % mb < mb := Nat.mod_lt _ hmb
  have hdm := Nat.div_add_mod x mb
  rw [Nat.mul_comm] at hdm
  refine ⟨cDiv_ok x mb hmb, hsub, by omega, by omega, ?_⟩
  intro ndebug
  have hc : (do
      let i ← cDiv x mb
      let j := x - i * mb
      cAssert ndebug (i * mb + j == x)
      pure (i, j)) =
    (cDiv x mb >>= fun i => cAssert ndebug (i * mb + (x - i * mb) == x) >>= fun _ =>
      (pure (i, x - i * mb) : Except Fault (Nat × Nat))) := rfl
  rw [hc, cDiv_ok x mb hmb, ok_bind, decode_assert, ok_bind, hsub]
  rfl

/-- C18, on `x = 7`, `mb = 3`: the pair is `(2, 1)` -/
theorem decode_exact_witness :
    0 < 3 ∧
    cDiv 7 3 = .ok (7 / 3) ∧
    7 - 7 / 3 * 3 = 7 % 3 ∧
    7 - 7 / 3 * 3 < 3 ∧
    7 / 3 * 3 + (7 - 7 / 3 * 3) = 7 ∧
    (∀ ndebug, (do
      let i ← cDiv 7 3
      let j := 7 - i * 3
      cAssert ndebug (i * 3 + j == 7)
      pure (i, j)) = Except.ok (7 / 3, 7 % 3)) :=
  ⟨by decide, decode_exact 3 7 (by decide)⟩

/-- C20: swapping the inputs transposes the result.  Over any ring, for
matrices of `ma * n` and `mb * n` elements, `cdist_single_threaded` returns on
`(a, b)` and on `(b, a)`, and the cell `i * mb + j` of the first output equals
the cell `j * ma + i` of the second, for every `i < ma` and `j < mb`. -/
theorem cdist_single_threaded_swap {α : Type} [Ring α] (a b : Ptr α) (dest1 dest2 : Nat)
    (ma mb n : Nat) (o1 o2 : Out α) (ha : a.off + ma * n ≤ a.buf.length)
    (hb : b.off + mb * n ≤ b.buf.length) (hd1 : dest1 + ma * mb ≤ o1.mem.length)
    (hd2 : dest2 + mb * ma ≤ o2.mem.length) :
    ∃ C D, cdist_single_threaded Sqeuclidean a b dest1 ma mb n o1 = .ok C ∧
      cdist_single_threaded Sqeuclidean b a dest2 mb ma n o2 = .ok D ∧
      ∀ i, i < ma → ∀ j, j < mb →
        C.mem[dest1 + (i * mb + j)]? = D.mem[dest2 + (j * ma + i)]? ∧
        C.mem[dest1 + (i * mb + j)]?
          = some (sqdist_spec (a.add (n * i)) (b.add (n * j)) n) := by
  obtain ⟨c1, hr1, _, _, _, hc1, _⟩ :=
    cdist_single_threaded_sqeuclidean a b dest1 ma mb n o1 ha hb hd1
  obtain ⟨c2, hr2, _, _, _, hc2, _⟩ :=
    cdist_single_threaded_sqeuclidean b a dest2 mb ma n o2 hb ha hd2
  refine ⟨c1.out, c2.out, hr1, hr2, ?_⟩
  intro i hi j hj
  have h1 := hc1 (i * mb + j) (cell_lt ma mb i j hi hj)
  have h2 := hc2 (j * ma + i) (cell_lt mb ma j i hj hi)
  have hd1 := div_mod_cell mb i j hj
  have hd2 := div_mod_cell ma j i hi
  simp only [hd1.1, hd1.2] at h1
  simp only [hd2.1, hd2.2] at h2
  rw [h1, h2, sqdist_spec_comm]
  exact ⟨rfl, rfl⟩

/-- C20, on `A = [[0,0],[3,4]]` and `B = [[1,1],[0,2],[5,5]]`: the outputs are
`[[2,4,50],[13,13,5]]` and its transpose -/
theorem cdist_single_threaded_swap_witness :
    (⟨[0, 0, 3, 4], 0⟩ : Ptr Int).off + 2 * 2 ≤ (⟨[0, 0, 3, 4], 0⟩ : Ptr Int).buf.length ∧
    (⟨[1, 1, 0, 2, 5, 5], 0⟩ : Ptr Int).off + 3 * 2
      ≤ (⟨[1, 1, 0, 2, 5, 5], 0⟩ : Ptr Int).buf.length ∧
    0 + 2 * 3 ≤ (⟨[7, 7, 7, 7, 7, 7], []⟩ : Out Int).mem.length ∧
    0 + 3 * 2 ≤ (⟨[8, 8, 8, 8, 8, 8], []⟩ : Out Int).mem.length ∧
    Except.map Out.mem (cdist_single_threaded Sqeuclidean (⟨[0, 0, 3, 4], 0⟩ : Ptr Int)
      ⟨[1, 1, 0, 2, 5, 5], 0⟩ 0 2 3 2 ⟨[7, 7, 7, 7, 7, 7], []⟩) = .ok [2, 4, 50, 13, 13, 5] ∧
    Except.map Out.mem (cdist_single_threaded Sqeuclidean (⟨[1, 1, 0, 2, 5, 5], 0⟩ : Ptr Int)
      ⟨[0, 0, 3, 4], 0⟩ 0 3 2 2 ⟨[8, 8, 8, 8, 8, 8], []⟩) = .ok [2, 13, 4, 13, 50, 5] ∧
    ∃ C D, cdist_single_threaded Sqeuclidean (⟨[0, 0, 3, 4], 0⟩ : Ptr Int)
        ⟨[1, 1, 0, 2, 5, 5], 0⟩ 0 2 3 2 ⟨[7, 7, 7, 7, 7, 7], []⟩ = .ok C ∧
      cdist_single_threaded Sqeuclidean (⟨[1, 1, 0, 2, 5, 5], 0⟩ : Ptr Int)
        ⟨[0, 0, 3, 4], 0⟩ 0 3 2 2 ⟨[8, 8, 8, 8, 8, 8], []⟩ = .ok D ∧
      ∀ i, i < 2 → ∀ j, j < 3 →
        C.mem[0 + (i * 3 + j)]? = D.mem[0 + (j * 2 + i)]? ∧
        C.mem[0 + (i * 3 + j)]?
          = some (sqdist_spec ((⟨[0, 0, 3, 4], 0⟩ : Ptr Int).add (2 * i))
              ((⟨[1, 1, 0, 2, 5, 5], 0⟩ : Ptr Int).add (2 * j)) 2) :=
  ⟨by decide, by decide, by decide, by decide, by decide, by decide,
    cdist_single_threaded_swap (⟨[0, 0, 3, 4], 0⟩ : Ptr Int) ⟨[1, 1, 0, 2, 5, 5], 0⟩ 0 0 2 3 2
      ⟨[7, 7, 7, 7, 7, 7], []⟩ ⟨[8, 8, 8, 8, 8, 8], []⟩
      (by decide) (by decide) (by decide) (by decide)⟩

/-- What a filled destination says about the cells `start ≤ k < stop`, in terms
of the linear index `k` -/
theorem FilledTo.cells_linear {α : Type} (name : String) (v : Nat → Nat → α) (o : Out α)
    (dest mb start stop : Nat) (cur : Cur α)
    (hF : FilledTo (fun k => ⟨name, (start + k) / mb, (start + k) % mb, dest + start + k⟩)
      (fun k => v ((start + k) / mb) ((start + k) % mb)) o (dest + start) (stop - start) cur) :
    ∀ k, start ≤ k → k < stop → cur.out.mem[dest + k]? = some (v (k / mb) (k % mb)) := by
  intro k hk1 hk2
  have h := hF.2.2.2.1 (k - start) (by omega)
  have he : start + (k - start) = k := by omega
  have hd : dest + start + (k - start) = dest + k := by omega
  simp only [he, hd] at h
  exact h

/-- With assertions compiled in, the worker body returns what it returns
without them, unless its closing assertion fails -/
theorem cdist_worker_debug_of_ndebug {α : Type} (f : ElemFunc α) (a b : Ptr α)
    (dest ma mb n start stop : Nat) (o o1 : Out α) (hmb : 0 < mb)
    (h : cdist_worker true f a b dest ma mb n start stop o = .ok o1) :
    cdist_worker false f a b dest ma mb n start stop o = .ok o1 ∨
      cdist_worker false f a b dest ma mb n start stop o = .error Fault.assertFailed := by
  rw [cdist_worker_eq true f a b dest ma mb n start stop o hmb] at h
  obtain ⟨st, h1, h⟩ := bind_ok_inv h
  obtain ⟨c, h2, h⟩ := bind_ok_inv h
  obtain ⟨_, _, h⟩ := bind_ok_inv h
  simp only [pure, Except.pure, Except.ok.injEq] at h
  rw [cdist_worker_eq false f a b dest ma mb n start stop o hmb, h1, ok_bind, h2, ok_bind]
  cases hb : (c.pos == dest + stop) with
  | true =>
    left
    simp [cAssert, bind, Except.bind, pure, Except.pure, h]
  | false =>
    right
    simp [cAssert, bind, Except.bind, throw, throwThe, MonadExceptOf.throw]

/-- Events of `cnt` whole rows, taken in linear order, are the events of row
`base`, then of row `base + 1`, and so on, each row from column `0` to `mb` -/
theorem whole_rows_events (name : String) (dest mb base : Nat) :
    ∀ cnt, (List.range (cnt * mb)).map
        (fun k => (⟨name, (base * mb + k) / mb, (base * mb + k) % mb, dest + (base * mb + k)⟩ : Ev))
      = (List.range cnt).flatMap (fun r => (List.range mb).map
          (fun j => (⟨name, base + r, j, dest + ((base + r) * mb + j)⟩ : Ev))) := by
  intro cnt
  induction cnt with
  | zero => simp
  | succ cnt ih =>
    rw [Nat.add_mul, Nat.one_mul, List.range_add, List.map_append, ih, List.range_succ,
      List.flatMap_append, List.flatMap_singleton, List.map_map]
    congr 1
    apply List.map_congr_left
    intro j hj
    have hjlt : j < mb := List.mem_range.mp hj
    have hdm := div_mod_cell mb (base + cnt) j hjlt
    have he : base * mb + (cnt * mb + j) = (base + cnt) * mb + j := by
      rw [Nat.add_mul]; omega
    simp only [Function.comp, he, hdm.1, hdm.2]

/-- The events of a subrange that spans several rows, taken in linear order,
are: row `i0` from column `j0` to `mb`, then every column of the rows strictly
between `i0` and `i_end`, then row `i_end` from column `0` to `j_end` -/
theorem linear_events_segments (name : String) (dest mb start stop : Nat) (hmb : 0 < mb)
    (hrows : start / mb < stop / mb) :
    (List.range (stop - start)).map
        (fun k => (⟨name, (start + k) / mb, (start + k) % mb, dest + start + k⟩ : Ev))
      = (List.range (mb - start % mb)).map
          (fun t => (⟨name, start / mb, start % mb + t, dest + start + t⟩ : Ev)) ++
        (List.range (stop / mb - start / mb - 1)).flatMap (fun r => (List.range mb).map
          (fun j => (⟨name, start / mb + 1 + r, j, dest + ((start / mb + 1 + r) * mb + j)⟩ : Ev)))
        ++ (List.range (stop % mb)).map
          (fun j => (⟨name, stop / mb, j, dest + (stop / mb * mb + j)⟩ : Ev)) := by
  have hstart : start = start / mb * mb + start % mb := by
    have h := Nat.div_add_mod start mb
    rw [Nat.mul_comm] at h
    omega
  have hend : stop = stop / mb * mb + stop % mb := by
    have h := Nat.div_add_mod stop mb
    rw [Nat.mul_comm] at h
    omega
  have hj0 : start % mb < mb := Nat.mod_lt _ hmb
  have hje : stop % mb < mb := Nat.mod_lt _ hmb
  have hmul : (start / mb + 1) * mb ≤ stop / mb * mb := Nat.mul_le_mul_right mb hrows
  have hsucc : (start / mb + 1) * mb = start / mb * mb + mb := by rw [Nat.add_mul, Nat.one_mul]
  have hmid : (stop / mb - start / mb - 1) * mb = stop / mb * mb - (start / mb + 1) * mb := by
    rw [← Nat.sub_mul]
    congr 1
  have hlen : stop - start
      = (mb - start % mb) + ((stop / mb - start / mb - 1) * mb + stop % mb) := by omega
  rw [hlen]
  simp only [List.range_add, List.map_append, List.map_map, List.append_assoc]
  congr 1
  · apply List.map_congr_left
    intro t ht
    have htlt : t < mb - start % mb := List.mem_range.mp ht
    have hdm := div_mod_of_eq mb (start / mb) (start % mb + t) (start + t) (by omega) (by omega)
    simp only [hdm.1, hdm.2]
  · congr 1
    · have hw := whole_rows_events name dest mb (start / mb + 1)
        (stop / mb - start / mb - 1)
      rw [← hw]
      apply List.map_congr_left
      intro k _
      have he : start + (mb - start % mb + k) = (start / mb + 1) * mb + k := by omega
      have he2 : dest + start + (mb - start % mb + k)
          = dest + ((start / mb + 1) * mb + k) := by omega
      simp only [Function.comp, he, he2]
    · apply List.map_congr_left
      intro j hj
      have hjlt : j < stop % mb := List.mem_range.mp hj
      have he : start + (mb - start % mb + ((stop / mb - start / mb - 1) * mb + j))
          = stop / mb * mb + j := by omega
      have he2 : dest + start + (mb - start % mb + ((stop / mb - start / mb - 1) * mb + j))
          = dest + (stop / mb * mb + j) := by omega
      have hdm := div_mod_cell mb (stop / mb) j (by omega)
      simp only [Function.comp, he, he2, hdm.1, hdm.2]

/-- C16: multi-row subrange.  For `mb > 0` and a subrange `[start, end)` with
`end ≤ ma * mb` whose decoded rows differ (`start / mb < end / mb`), the worker
body returns, with assertions compiled in or not; it makes exactly
`end - start` stores, the `k`-th of them with `i = (start + k) / mb` and
`j = (start + k) % mb` to the offset `dest + start + k`; that is, first row
`i0` from column `j0` to `mb`, then every column of the rows strictly between
`i0` and `i_end`, then row `i_end` from column `0` to `j_end`.  Every cell `k` in `[start, end)` receives the
metric of row `k / mb` of `a` and row `k % mb` of `b`, and no other cell
changes. -/
theorem cdist_worker_multi_row {α : Type} (ndebug : Bool) (f : ElemFunc α) (a b : Ptr α)
    (dest ma mb n start stop : Nat) (o : Out α) (v : Nat → Nat → α) (hmb : 0 < mb)
    (hem : stop ≤ ma * mb) (hrows : start / mb < stop / mb)
    (hf : ∀ i, i < ma → ∀ j, j < mb → f.call (a.add (n * i)) (b.add (n * j)) n = .ok (v i j))
    (hroom : dest + stop ≤ o.mem.length) :
    ∃ o1, cdist_worker ndebug f a b dest ma mb n start stop o = .ok o1 ∧
      o1.trace = o.trace ++ (List.range (stop - start)).map
        (fun k => ⟨f.name, (start + k) / mb, (start + k) % mb, dest + start + k⟩) ∧
      o1.trace = o.trace ++
        ((List.range (mb - start % mb)).map
            (fun t => (⟨f.name, start / mb, start % mb + t, dest + start + t⟩ : Ev)) ++
          (List.range (stop / mb - start / mb - 1)).flatMap (fun r => (List.range mb).map
            (fun j => (⟨f.name, start / mb + 1 + r, j,
              dest + ((start / mb + 1 + r) * mb + j)⟩ : Ev))) ++
          (List.range (stop % mb)).map
            (fun j => (⟨f.name, stop / mb, j, dest + (stop / mb * mb + j)⟩ : Ev))) ∧
      (∀ k, start ≤ k → k < stop → o1.mem[dest + k]? = some (v (k / mb) (k % mb))) ∧
      o1.mem.length = o.mem.length ∧
      (∀ q, q < dest + start ∨ dest + stop ≤ q → o1.mem[q]? = o.mem[q]?) := by
  have hse : start ≤ stop := by
    by_contra hcon
    have h1 : stop / mb ≤ start / mb := Nat.div_le_div_right (by omega)
    omega
  obtain ⟨cur, hr, hF⟩ := cdist_worker_filled ndebug f a b dest ma mb n start stop o v hmb hse
    hem (Or.inl hrows) hf hroom
  refine ⟨cur.out, hr, hF.2.1, ?_, FilledTo.cells_linear f.name v o dest mb start stop cur hF,
    hF.2.2.1, ?_⟩
  · rw [hF.2.1, linear_events_segments f.name dest mb start stop hmb hrows]
  · intro q hq
    exact hF.2.2.2.2 q (by omega)

/-- C16, on `ma = 3`, `mb = 3`, `n = 1` and the subrange `[2, 7)`: the end of
row 0, the whole of row 1 and the first column of row 2 -/
theorem cdist_worker_multi_row_witness :
    0 < 3 ∧ 7 ≤ 3 * 3 ∧ 2 / 3 < 7 / 3 ∧
    (∀ i, i < 3 → ∀ j, j < 3 →
      (Sqeuclidean : ElemFunc Int).call ((⟨[0, 10, 20], 0⟩ : Ptr Int).add (1 * i))
        ((⟨[0, 1, 2], 0⟩ : Ptr Int).add (1 * j)) 1
        = .ok (((10 : Int) * i - j) * ((10 : Int) * i - j))) ∧
    0 + 7 ≤ (⟨[7, 7, 7, 7, 7, 7, 7, 7, 7], []⟩ : Out Int).mem.length ∧
    cdist_worker false Sqeuclidean (⟨[0, 10, 20], 0⟩ : Ptr Int) ⟨[0, 1, 2], 0⟩ 0 3 3 1 2 7
      ⟨[7, 7, 7, 7, 7, 7, 7, 7, 7], []⟩
      = .ok ⟨[7, 7, 4, 100, 81, 64, 400, 7, 7],
          [⟨"Sqeuclidean", 0, 2, 2⟩, ⟨"Sqeuclidean", 1, 0, 3⟩, ⟨"Sqeuclidean", 1, 1, 4⟩,
           ⟨"Sqeuclidean", 1, 2, 5⟩, ⟨"Sqeuclidean", 2, 0, 6⟩]⟩ ∧
    ∃ o1, cdist_worker false Sqeuclidean (⟨[0, 10, 20], 0⟩ : Ptr Int) ⟨[0, 1, 2], 0⟩ 0 3 3 1 2 7
        ⟨[7, 7, 7, 7, 7, 7, 7, 7, 7], []⟩ = .ok o1 ∧
      o1.trace = [] ++ (List.range (7 - 2)).map
        (fun k => ⟨"Sqeuclidean", (2 + k) / 3, (2 + k) % 3, 0 + 2 + k⟩) ∧
      o1.trace = [] ++
        ((List.range (3 - 2 % 3)).map
            (fun t => (⟨"Sqeuclidean", 2 / 3, 2 % 3 + t, 0 + 2 + t⟩ : Ev)) ++
          (List.range (7 / 3 - 2 / 3 - 1)).flatMap (fun r => (List.range 3).map
            (fun j => (⟨"Sqeuclidean", 2 / 3 + 1 + r, j, 0 + ((2 / 3 + 1 + r) * 3 + j)⟩ : Ev))) ++
          (List.range (7 % 3)).map
            (fun j => (⟨"Sqeuclidean", 7 / 3, j, 0 + (7 / 3 * 3 + j)⟩ : Ev))) ∧
      (∀ k, 2 ≤ k → k < 7 →
        o1.mem[0 + k]? = some (((10 : Int) * (k / 3 : Nat) - (k % 3 : Nat))
          * ((10 : Int) * (k / 3 : Nat) - (k % 3 : Nat)))) ∧
      o1.mem.length = 9 ∧
      (∀ q, q < 0 + 2 ∨ 0 + 7 ≤ q → o1.mem[q]? = ([7, 7, 7, 7, 7, 7, 7, 7, 7] : List Int)[q]?) :=
  ⟨by decide, by decide, by decide, by decide, by decide, by decide,
    cdist_worker_multi_row false Sqeuclidean (⟨[0, 10, 20], 0⟩ : Ptr Int) ⟨[0, 1, 2], 0⟩ 0 3 3 1
      2 7 ⟨[7, 7, 7, 7, 7, 7, 7, 7, 7], []⟩
      (fun i j => ((10 : Int) * i - j) * ((10 : Int) * i - j))
      (by decide) (by decide) (by decide) (by decide) (by decide)⟩

theorem mem_trace_filled {α : Type} (ev : Nat → Ev) (val : Nat → α) (o : Out α) (p0 c : Nat)
    (cur : Cur α) (hF : FilledTo ev val o p0 c cur) (e : Ev) (he : e ∈ cur.out.trace) :
    e ∈ o.trace ∨ ∃ k, k < c ∧ e = ev k := by
  rw [hF.2.1, List.mem_append] at he
  rcases he with he | he
  · exact Or.inl he
  · obtain ⟨k, hk, rfl⟩ := List.mem_map.mp he
    exact Or.inr ⟨k, List.mem_range.mp hk, rfl⟩

/-- C17: per-cell reads stay in bounds.  For `mb > 0`, every subrange with
`start ≤ end ≤ ma * mb` and every metric that returns on the rows `i < ma` of
`a` and `j < mb` of `b` (it may fail on every other pair of pointers, as the
two metrics of this file do when a read leaves its buffer), the worker body
returns when assertions are compiled out, and every store it records was made
with `i < ma` and `j < mb`; so no metric call is made on any other row, the
row pointer `a + n * ma` included.  With assertions compiled in, the only way
it can stop is its closing assertion.  The output memory is taken with `mb`
cells to spare, since a subrange inside one row stores past its end. -/
theorem cdist_worker_reads_in_bounds {α : Type} (f : ElemFunc α) (a b : Ptr α)
    (dest ma mb n start stop : Nat) (o : Out α) (v : Nat → Nat → α) (hmb : 0 < mb)
    (hse : start ≤ stop) (hem : stop ≤ ma * mb)
    (hf : ∀ i, i < ma → ∀ j, j < mb → f.call (a.add (n * i)) (b.add (n * j)) n = .ok (v i j))
    (hroom : dest + stop + mb ≤ o.mem.length) :
    ∃ o1, cdist_worker true f a b dest ma mb n start stop o = .ok o1 ∧
      (∀ e, e ∈ o1.trace → e ∈ o.trace ∨ (e.i < ma ∧ e.j < mb)) ∧
      (cdist_worker false f a b dest ma mb n start stop o = .ok o1 ∨
        cdist_worker false f a b dest ma mb n start stop o = .error Fault.assertFailed) := by
  have hje : stop % mb < mb := Nat.mod_lt _ hmb
  have hend : stop = stop / mb * mb + stop % mb := by
    have h := Nat.div_add_mod stop mb
    rw [Nat.mul_comm] at h
    omega
  by_cases hrow : start / mb = stop / mb
  · obtain ⟨cur, hr, hF⟩ := cdist_worker_single_row f a b dest ma mb n start stop o v hmb hem
      hrow hf (by omega)
    refine ⟨cur.out, hr, ?_, cdist_worker_debug_of_ndebug f a b dest ma mb n start stop o _ hmb hr⟩
    intro e he
    rcases mem_trace_filled _ _ o _ _ cur hF e he with h | ⟨k, hk, rfl⟩
    · exact Or.inl h
    · refine Or.inr ⟨?_, by show k < mb; omega⟩
      show stop / mb < ma
      apply div_lt_of_lt_mul
      by_contra hcon
      have h2 : ma * mb = stop := by omega
      have h3 : stop % mb = 0 := by rw [← h2]; exact Nat.mul_mod_left ma mb
      omega
  · have hlt : start / mb < stop / mb :=
      lt_of_le_of_ne (Nat.div_le_div_right hse) hrow
    obtain ⟨cur, hr, hF⟩ := cdist_worker_filled true f a b dest ma mb n start stop o v hmb hse
      hem (Or.inl hlt) hf (by omega)
    refine ⟨cur.out, hr, ?_, cdist_worker_debug_of_ndebug f a b dest ma mb n start stop o _ hmb hr⟩
    intro e he
    rcases mem_trace_filled _ _ o _ _ cur hF e he with h | ⟨k, hk, rfl⟩
    · exact Or.inl h
    · refine Or.inr ⟨?_, by show (start + k) % mb < mb; exact Nat.mod_lt _ hmb⟩
      show (start + k) / mb < ma
      exact div_lt_of_lt_mul _ ma mb (by omega)

/-- C17, on matrices that hold exactly `ma * n` and `mb * n` elements and the
subrange `[1, 2)` of `ma = 1`, `mb = 3`: the two calls made are on row 0 of
`A` and on rows 0 and 1 of `B` -/
theorem cdist_worker_reads_in_bounds_witness :
    0 < 3 ∧ 1 ≤ 2 ∧ 2 ≤ 1 * 3 ∧
    (∀ i, i < 1 → ∀ j, j < 3 →
      (Sqeuclidean : ElemFunc Int).call ((⟨[0, 0], 0⟩ : Ptr Int).add (2 * i))
        ((⟨[1, 0, 2, 0, 3, 0], 0⟩ : Ptr Int).add (2 * j)) 2
        = .ok (((j : Int) + 1) * ((j : Int) + 1))) ∧
    0 + 2 + 3 ≤ (⟨[7, 7, 7, 7, 7], []⟩ : Out Int).mem.length ∧
    cdist_worker true Sqeuclidean (⟨[0, 0], 0⟩ : Ptr Int) ⟨[1, 0, 2, 0, 3, 0], 0⟩ 0 1 3 2 1 2
      ⟨[7, 7, 7, 7, 7], []⟩
      = .ok ⟨[7, 1, 4, 7, 7], [⟨"Sqeuclidean", 0, 0, 1⟩, ⟨"Sqeuclidean", 0, 1, 2⟩]⟩ ∧
    ∃ o1, cdist_worker true Sqeuclidean (⟨[0, 0], 0⟩ : Ptr Int) ⟨[1, 0, 2, 0, 3, 0], 0⟩ 0 1 3 2
        1 2 ⟨[7, 7, 7, 7, 7], []⟩ = .ok o1 ∧
      (∀ e, e ∈ o1.trace → e ∈ ([] : List Ev) ∨ (e.i < 1 ∧ e.j < 3)) ∧
      (cdist_worker false Sqeuclidean (⟨[0, 0], 0⟩ : Ptr Int) ⟨[1, 0, 2, 0, 3, 0], 0⟩ 0 1 3 2
          1 2 ⟨[7, 7, 7, 7, 7], []⟩ = .ok o1 ∨
        cdist_worker false Sqeuclidean (⟨[0, 0], 0⟩ : Ptr Int) ⟨[1, 0, 2, 0, 3, 0], 0⟩ 0 1 3 2
          1 2 ⟨[7, 7, 7, 7, 7], []⟩ = .error Fault.assertFailed) :=
  ⟨by decide, by decide, by decide, by decide, by decide, by decide,
    cdist_worker_reads_in_bounds Sqeuclidean (⟨[0, 0], 0⟩ : Ptr Int) ⟨[1, 0, 2, 0, 3, 0], 0⟩ 0 1
      3 2 1 2 ⟨[7, 7, 7, 7, 7], []⟩ (fun _ j => ((j : Int) + 1) * ((j : Int) + 1))
      (by decide) (by decide) (by decide) (by decide) (by decide)⟩

/-- C19: row-aligned subranges are computed correctly.  For `mb > 0` and a
subrange with `start ≤ end ≤ ma * mb` that starts at a multiple of `mb`, the
worker body returns, with assertions compiled in or not; it makes exactly the
stores to the cells `start`, ..., `end - 1`, in that order, cell `k` receiving
the metric of row `k / mb` of `a` and row `k % mb` of `b`; these are the values
`cdist_single_threaded` leaves in the same cells; no other cell changes.  On
the single subrange `[0, ma * mb)` the worker body and `cdist_single_threaded`
return the same output, stores included. -/
theorem cdist_worker_row_aligned {α : Type} (ndebug : Bool) (f : ElemFunc α) (a b : Ptr α)
    (dest ma mb n start stop : Nat) (o : Out α) (v : Nat → Nat → α) (hmb : 0 < mb)
    (hse : start ≤ stop) (hem : stop ≤ ma * mb) (halign : start % mb = 0)
    (hf : ∀ i, i < ma → ∀ j, j < mb → f.call (a.add (n * i)) (b.add (n * j)) n = .ok (v i j))
    (hroom : dest + ma * mb ≤ o.mem.length) :
    (∃ o1 o2, cdist_worker ndebug f a b dest ma mb n start stop o = .ok o1 ∧
      cdist_single_threaded f a b dest ma mb n o = .ok o2 ∧
      o1.trace = o.trace ++ (List.range (stop - start)).map
        (fun k => ⟨f.name, (start + k) / mb, (start + k) % mb, dest + start + k⟩) ∧
      (∀ k, start ≤ k → k < stop → o1.mem[dest + k]? = some (v (k / mb) (k % mb))) ∧
      (∀ k, start ≤ k → k < stop → o1.mem[dest + k]? = o2.mem[dest + k]?) ∧
      (∀ q, q < dest + start ∨ dest + stop ≤ q → o1.mem[q]? = o.mem[q]?)) ∧
    cdist_worker ndebug f a b dest ma mb n 0 (ma * mb) o
      = cdist_single_threaded f a b dest ma mb n o := by
  obtain ⟨c2, hr2, hF2⟩ := cdist_single_threaded_filled f a b dest ma mb n o v hf hroom
  constructor
  · obtain ⟨cur, hr, hF⟩ := cdist_worker_filled ndebug f a b dest ma mb n start stop o v hmb hse
      hem (Or.inr halign) hf (by omega)
    have hcells := FilledTo.cells_linear f.name v o dest mb start stop cur hF
    refine ⟨cur.out, c2.out, hr, hr2, hF.2.1, hcells, ?_, ?_⟩
    · intro k hk1 hk2
      rw [hcells k hk1 hk2, hF2.2.2.2.1 k (by omega)]
    · intro q hq
      exact hF.2.2.2.2 q (by omega)
  · obtain ⟨cur, hr, hF⟩ := cdist_worker_filled ndebug f a b dest ma mb n 0 (ma * mb) o v hmb
      (Nat.zero_le _) (le_refl _) (Or.inr (Nat.zero_mod mb)) hf (by omega)
    simp only [Nat.zero_add, Nat.add_zero, Nat.sub_zero] at hF
    rw [hr, hr2, FilledTo.unique _ _ o dest (ma * mb) cur c2 hF hF2]

/-- C19, on `ma = 2`, `mb = 3`, `n = 1` and the subrange `[3, 5)`, which starts
row 1 -/
theorem cdist_worker_row_aligned_witness :
    0 < 3 ∧ 3 ≤ 5 ∧ 5 ≤ 2 * 3 ∧ 3 % 3 = 0 ∧
    (∀ i, i < 2 → ∀ j, j < 3 →
      (Sqeuclidean : ElemFunc Int).call ((⟨[0, 10], 0⟩ : Ptr Int).add (1 * i))
        ((⟨[0, 1, 2], 0⟩ : Ptr Int).add (1 * j)) 1
        = .ok (((10 : Int) * i - j) * ((10 : Int) * i - j))) ∧
    0 + 2 * 3 ≤ (⟨[7, 7, 7, 7, 7, 7], []⟩ : Out Int).mem.length ∧
    cdist_worker false Sqeuclidean (⟨[0, 10], 0⟩ : Ptr Int) ⟨[0, 1, 2], 0⟩ 0 2 3 1 3 5
      ⟨[7, 7, 7, 7, 7, 7], []⟩
      = .ok ⟨[7, 7, 7, 100, 81, 7], [⟨"Sqeuclidean", 1, 0, 3⟩, ⟨"Sqeuclidean", 1, 1, 4⟩]⟩ ∧
    cdist_single_threaded Sqeuclidean (⟨[0, 10], 0⟩ : Ptr Int) ⟨[0, 1, 2], 0⟩ 0 2 3 1
      ⟨[7, 7, 7, 7, 7, 7], []⟩
      = .ok ⟨[0, 1, 4, 100, 81, 64],
          [⟨"Sqeuclidean", 0, 0, 0⟩, ⟨"Sqeuclidean", 0, 1, 1⟩, ⟨"Sqeuclidean", 0, 2, 2⟩,
           ⟨"Sqeuclidean", 1, 0, 3⟩, ⟨"Sqeuclidean", 1, 1, 4⟩, ⟨"Sqeuclidean", 1, 2, 5⟩]⟩ ∧
    cdist_worker false Sqeuclidean (⟨[0, 10], 0⟩ : Ptr Int) ⟨[0, 1, 2], 0⟩ 0 2 3 1 0 (2 * 3)
        ⟨[7, 7, 7, 7, 7, 7], []⟩
      = cdist_single_threaded Sqeuclidean (⟨[0, 10], 0⟩ : Ptr Int) ⟨[0, 1, 2], 0⟩ 0 2 3 1
        ⟨[7, 7, 7, 7, 7, 7], []⟩ :=
  ⟨by decide, by decide, by decide, by decide, by decide, by decide, by decide, by decide,
    (cdist_worker_row_aligned false Sqeuclidean (⟨[0, 10], 0⟩ : Ptr Int) ⟨[0, 1, 2], 0⟩ 0 2 3 1
      3 5 ⟨[7, 7, 7, 7, 7, 7], []⟩
      (fun i j => ((10 : Int) * i - j) * ((10 : Int) * i - j))
      (by decide) (by decide) (by decide) (by decide) (by decide) (by decide)).2⟩

/-! ## The partitioner -/

/-- A division of `[lo, hi)` holds every index of `[lo, hi)` in exactly one of
its subranges and no other index in any -/
theorem IsDivision.cover : ∀ (rs : List (Nat × Nat)) (lo hi : Nat), IsDivision lo hi rs →
    ∀ k, (rs.filter (fun r => decide (r.1 ≤ k ∧ k < r.2))).length
      = if lo ≤ k ∧ k < hi then 1 else 0 := by
  intro rs
  induction rs with
  | nil =>
    intro lo hi h k
    have hlo : lo = hi := h
    have hn : ¬ (lo ≤ k ∧ k < hi) := by omega
    simp [hn]
  | cons r rs ih =>
    intro lo hi h k
    obtain ⟨h1, h2, h3, h4⟩ := h
    have hrec := ih r.2 hi h4 k
    by_cases hk : r.1 ≤ k ∧ k < r.2
    · have hn : ¬ (r.2 ≤ k ∧ k < hi) := by omega
      have hy : lo ≤ k ∧ k < hi := by omega
      rw [if_neg hn] at hrec
      rw [List.filter_cons_of_pos (by simpa using hk), List.length_cons, hrec, if_pos hy]
    · rw [List.filter_cons_of_neg (by simpa using hk), hrec]
      by_cases hy : lo ≤ k ∧ k < hi
      · have hy2 : r.2 ≤ k ∧ k < hi := by omega
        rw [if_pos hy2, if_pos hy]
      · have hn : ¬ (r.2 ≤ k ∧ k < hi) := by omega
        rw [if_neg hn, if_neg hy]

theorem splitFrom_isDivision (size hi : Nat) (hsize : 0 < size) :
    ∀ fuel lo, lo ≤ hi → hi - lo ≤ fuel → IsDivision lo hi (splitFrom size hi fuel lo) := by
  intro fuel
  induction fuel with
  | zero =>
    intro lo h1 h2
    show lo = hi
    omega
  | succ fuel ih =>
    intro lo h1 h2
    by_cases hlt : lo < hi
    · simp only [splitFrom, if_pos hlt]
      refine ⟨rfl, ?_, ?_, ih _ ?_ ?_⟩
      · show lo ≤ min (lo + size) hi
        omega
      · show min (lo + size) hi ≤ hi
        omega
      · omega
      · omega
    · simp only [splitFrom, if_neg hlt]
      show lo = hi
      omega

theorem splitFrom_nonempty (size hi : Nat) (hsize : 0 < size) :
    ∀ fuel lo r, r ∈ splitFrom size hi fuel lo → r.1 < r.2 := by
  intro fuel
  induction fuel with
  | zero =>
    intro lo r hr
    simp [splitFrom] at hr
  | succ fuel ih =>
    intro lo r hr
    by_cases hlt : lo < hi
    · simp only [splitFrom, if_pos hlt, List.mem_cons] at hr
      rcases hr with hr | hr
      · rw [hr]
        show lo < min (lo + size) hi
        omega
      · exact ih _ r hr
    · simp [splitFrom, hlt] at hr

theorem splitFrom_length (size hi : Nat) (hsize : 0 < size) :
    ∀ fuel lo, lo ≤ hi → (splitFrom size hi fuel lo).length * size ≤ (hi - lo) + (size - 1) := by
  intro fuel
  induction fuel with
  | zero =>
    intro lo _
    simp [splitFrom]
  | succ fuel ih =>
    intro lo h1
    by_cases hlt : lo < hi
    · simp only [splitFrom, if_pos hlt, List.length_cons]
      have hrec := ih (min (lo + size) hi) (by omega)
      rw [Nat.add_mul, Nat.one_mul]
      by_cases hfull : lo + size ≤ hi
      · have hm : min (lo + size) hi = lo + size := by omega
        rw [hm] at hrec ⊢
        omega
      · have hm : min (lo + size) hi = hi := by omega
        rw [hm] at hrec ⊢
        have hz : (splitFrom size hi fuel hi).length = 0 := by
          cases fuel with
          | zero => simp [splitFrom]
          | succ fuel => simp [splitFrom]
        rw [hz]
        omega
    · simp [splitFrom, hlt]

/-- C13: partition coverage, for the partitioner of section 4.4.  For any
`ma`, `mb` and any number of pool threads, the subranges handed to the worker
body by the `parallelFor` call in `cdist` are the subranges of
`partitionRange (ma * mb) (numThreads + 1)`; they divide `[0, ma * mb)` into
consecutive pieces, each starting where the one before ends; every index below
`ma * mb` lies in exactly one of them and no other index lies in any; none is
empty; and there are at most `numThreads + 1` of them. -/
theorem partitionRange_covers {α : Type} (ndebug : Bool) (f : ElemFunc α) (a b : Ptr α)
    (dest ma mb n numThreads : Nat) (o : Out α) :
    cdist ndebug f a b dest ma mb n (some (specPool numThreads)) o
      = runBlocks (cdist_worker ndebug f a b dest ma mb n)
          (partitionRange (ma * mb) (numThreads + 1)) o ∧
    IsDivision 0 (ma * mb) (partitionRange (ma * mb) (numThreads + 1)) ∧
    (∀ k, ((partitionRange (ma * mb) (numThreads + 1)).filter
      (fun r => decide (r.1 ≤ k ∧ k < r.2))).length = if k < ma * mb then 1 else 0) ∧
    (∀ r, r ∈ partitionRange (ma * mb) (numThreads + 1) → r.1 < r.2) ∧
    (partitionRange (ma * mb) (numThreads + 1)).length ≤ numThreads + 1 := by
  refine ⟨rfl, ?_⟩
  generalize ma * mb = T
  have hdiv : IsDivision 0 T (partitionRange T (numThreads + 1)) := by
    by_cases hT : T = 0
    · subst hT
      show (0 : Nat) = 0
      rfl
    · exact splitFrom_isDivision _ T (Nat.div_pos (by omega) (by omega)) T 0 (Nat.zero_le _)
        (by omega)
  refine ⟨hdiv, ?_, ?_, ?_⟩
  · intro k
    have h := IsDivision.cover _ 0 T hdiv k
    simpa using h
  · intro r hr
    by_cases hT : T = 0
    · subst hT
      simp [partitionRange, splitFrom] at hr
    · exact splitFrom_nonempty _ T (Nat.div_pos (by omega) (by omega)) T 0 r hr
  · by_cases hT : T = 0
    · subst hT
      simp [partitionRange, splitFrom]
    · have hsize : 0 < (T + (numThreads + 1) - 1) / (numThreads + 1) :=
        Nat.div_pos (by omega) (by omega)
      have hlen : (partitionRange T (numThreads + 1)).length
          * ((T + (numThreads + 1) - 1) / (numThreads + 1))
          ≤ T - 0 + ((T + (numThreads + 1) - 1) / (numThreads + 1) - 1) :=
        splitFrom_length _ T hsize T 0 (Nat.zero_le _)
      have hWS : T ≤ (numThreads + 1) * ((T + (numThreads + 1) - 1) / (numThreads + 1)) := by
        have hdm := Nat.div_add_mod (T + (numThreads + 1) - 1) (numThreads + 1)
        have hpos : 0 < numThreads + 1 := Nat.succ_pos numThreads
        have hmod := Nat.mod_lt (T + (numThreads + 1) - 1) hpos
        omega
      by_contra hcon
      have hL : numThreads + 1 + 1 ≤ (partitionRange T (numThreads + 1)).length := by omega
      have hmul := Nat.mul_le_mul_right ((T + (numThreads + 1) - 1) / (numThreads + 1)) hL
      have he : (numThreads + 1 + 1) * ((T + (numThreads + 1) - 1) / (numThreads + 1))
          = (numThreads + 1) * ((T + (numThreads + 1) - 1) / (numThreads + 1))
            + (T + (numThreads + 1) - 1) / (numThreads + 1) := by ring
      omega

/-- C13, on 10 items and 4 workers: pieces of 3, 3, 3 and 1 items -/
theorem partitionRange_covers_witness :
    partitionRange 10 4 = [(0, 3), (3, 6), (6, 9), (9, 10)] ∧
    partitionRange (5 * 2) (3 + 1) = [(0, 3), (3, 6), (6, 9), (9, 10)] ∧
    partitionRange 0 4 = [] ∧
    partitionRange 2 4 = [(0, 1), (1, 2)] ∧
    IsDivision 0 (5 * 2) (partitionRange (5 * 2) (3 + 1)) :=
  ⟨by decide, by decide, by decide, by decide,
    (partitionRange_covers true (Sqeuclidean : ElemFunc Int) ⟨[], 0⟩ ⟨[], 0⟩ 0 5 2 0 3
      ⟨[], []⟩).2.1⟩

/-- Which failure status `Compute` can return: the one of the first shape
condition that is violated, with the context handed back -/
theorem Compute_fail_cases {α : Type} [Ring α] (ndebug : Bool) (self : CDist)
    (context : OpKernelContext α) (msg : String) (c1 : OpKernelContext α)
    (h : CDist.Compute ndebug self context = .ok (Status.FAIL msg, c1)) :
    c1 = context ∧
    ((context.A.Shape.length ≠ 2 ∧
        msg = "The first input of CDist kernel has wrong shape: ") ∨
      (context.A.Shape.length = 2 ∧ context.B.Shape.length ≠ 2 ∧
        msg = "The second input of CDist kernel has wrong shape: ") ∨
      (context.A.Shape.length = 2 ∧ context.B.Shape.length = 2 ∧
        context.A.Shape.getD 1 0 ≠ context.B.Shape.getD 1 0 ∧
        msg = "Input shape dimensions mismatch:")) := by
  obtain ⟨hi1, hi2, hi3⟩ := Compute_invalid ndebug self context
  by_cases h1 : context.A.Shape.length ≠ 2
  · rw [hi1 h1] at h
    simp only [Except.ok.injEq, Prod.mk.injEq, Status.FAIL.injEq] at h
    exact ⟨h.2.symm, Or.inl ⟨h1, h.1.symm⟩⟩
  · simp only [not_not] at h1
    by_cases h2 : context.B.Shape.length ≠ 2
    · rw [hi2 h1 h2] at h
      simp only [Except.ok.injEq, Prod.mk.injEq, Status.FAIL.injEq] at h
      exact ⟨h.2.symm, Or.inr (Or.inl ⟨h1, h2, h.1.symm⟩)⟩
    · simp only [not_not] at h2
      by_cases h3 : context.A.Shape.getD 1 0 ≠ context.B.Shape.getD 1 0
      · rw [hi3 h1 h2 h3] at h
        simp only [Except.ok.injEq, Prod.mk.injEq, Status.FAIL.injEq] at h
        exact ⟨h.2.symm, Or.inr (Or.inr ⟨h1, h2, h3, h.1.symm⟩)⟩
      · simp only [not_not] at h3
        have := (Compute_valid_status ndebug self context h1 h2 h3 _ _ h).1
        exact Status.noConfusion this

/-- The failure status depends on the two input tensors only -/
theorem Compute_fail_transfer {α : Type} [Ring α] (ndebug : Bool) (self : CDist)
    (c1 c2 : OpKernelContext α) (hA : c1.A = c2.A) (hB : c1.B = c2.B) (msg : String)
    (r : OpKernelContext α) (h : CDist.Compute ndebug self c1 = .ok (Status.FAIL msg, r)) :
    CDist.Compute ndebug self c2 = .ok (Status.FAIL msg, c2) := by
  obtain ⟨_, hc⟩ := Compute_fail_cases ndebug self c1 msg r h
  obtain ⟨hi1, hi2, hi3⟩ := Compute_invalid ndebug self c2
  rw [hA, hB] at hc
  rcases hc with ⟨h1, hm⟩ | ⟨h1, h2, hm⟩ | ⟨h1, h2, h3, hm⟩
  · rw [hm]; exact hi1 h1
  · rw [hm]; exact hi2 h1 h2
  · rw [hm]; exact hi3 h1 h2 h3

/-- C12: validation does not depend on threading.  For two runs of `Compute`
on the same input tensors that differ only in the operator thread pool: one
returns a given failure status exactly when the other returns it (the same one
of the three shape errors, each with its context untouched); on shapes that
fail validation both runs return that status; whenever both runs return, they
return the same status; and on shapes that pass validation `OK` is the only
status either run returns. -/
theorem Compute_status_pool_independent {α : Type} [Ring α] (ndebug : Bool) (self : CDist)
    (tp1 tp2 : Option ThreadPool) (A B : Tensor α) (fresh : Nat → α)
    (output : Option (List Nat × Out α)) :
    (∀ msg, CDist.Compute ndebug self ⟨tp1, A, B, fresh, output⟩
        = .ok (Status.FAIL msg, ⟨tp1, A, B, fresh, output⟩) ↔
      CDist.Compute ndebug self ⟨tp2, A, B, fresh, output⟩
        = .ok (Status.FAIL msg, ⟨tp2, A, B, fresh, output⟩)) ∧
    ((A.Shape.length ≠ 2 ∨ B.Shape.length ≠ 2 ∨ A.Shape.getD 1 0 ≠ B.Shape.getD 1 0) →
      ∃ msg, CDist.Compute ndebug self ⟨tp1, A, B, fresh, output⟩
          = .ok (Status.FAIL msg, ⟨tp1, A, B, fresh, output⟩) ∧
        CDist.Compute ndebug self ⟨tp2, A, B, fresh, output⟩
          = .ok (Status.FAIL msg, ⟨tp2, A, B, fresh, output⟩)) ∧
    (∀ st1 st2 r1 r2, CDist.Compute ndebug self ⟨tp1, A, B, fresh, output⟩ = .ok (st1, r1) →
      CDist.Compute ndebug self ⟨tp2, A, B, fresh, output⟩ = .ok (st2, r2) → st1 = st2) ∧
    (¬ (A.Shape.length ≠ 2 ∨ B.Shape.length ≠ 2 ∨ A.Shape.getD 1 0 ≠ B.Shape.getD 1 0) →
      ∀ tp st r, CDist.Compute ndebug self ⟨tp, A, B, fresh, output⟩ = .ok (st, r) →
        st = Status.OK) := by
  have hvalid : ¬ (A.Shape.length ≠ 2 ∨ B.Shape.length ≠ 2 ∨
      A.Shape.getD 1 0 ≠ B.Shape.getD 1 0) →
      ∀ tp st r, CDist.Compute ndebug self ⟨tp, A, B, fresh, output⟩ = .ok (st, r) →
        st = Status.OK := by
    intro hv tp st r h
    simp only [not_or, not_not] at hv
    exact (Compute_valid_status ndebug self ⟨tp, A, B, fresh, output⟩ hv.1 hv.2.1 hv.2.2 st r
      h).1
  have hbad : (A.Shape.length ≠ 2 ∨ B.Shape.length ≠ 2 ∨
      A.Shape.getD 1 0 ≠ B.Shape.getD 1 0) →
      ∀ tp, ∃ msg, CDist.Compute ndebug self ⟨tp, A, B, fresh, output⟩
        = .ok (Status.FAIL msg, ⟨tp, A, B, fresh, output⟩) ∧
        ∀ tp3, CDist.Compute ndebug self ⟨tp3, A, B, fresh, output⟩
          = .ok (Status.FAIL msg, ⟨tp3, A, B, fresh, output⟩) := by
    intro hb tp
    have hex : ∃ msg, CDist.Compute ndebug self ⟨tp, A, B, fresh, output⟩
        = .ok (Status.FAIL msg, ⟨tp, A, B, fresh, output⟩) := by
      obtain ⟨hi1, hi2, hi3⟩ := Compute_invalid ndebug self ⟨tp, A, B, fresh, output⟩
      by_cases h1 : A.Shape.length ≠ 2
      · exact ⟨_, hi1 h1⟩
      · simp only [not_not] at h1
        by_cases h2 : B.Shape.length ≠ 2
        · exact ⟨_, hi2 h1 h2⟩
        · simp only [not_not] at h2
          rcases hb with h | h | h
          · exact absurd h1 h
          · exact absurd h2 h
          · exact ⟨_, hi3 h1 h2 h⟩
    obtain ⟨msg, hm⟩ := hex
    exact ⟨msg, hm, fun tp3 => Compute_fail_transfer ndebug self ⟨tp, A, B, fresh, output⟩
      ⟨tp3, A, B, fresh, output⟩ rfl rfl msg _ hm⟩
  refine ⟨fun msg => ⟨fun h => ?_, fun h => ?_⟩, fun hb => ?_, ?_, hvalid⟩
  · exact Compute_fail_transfer ndebug self ⟨tp1, A, B, fresh, output⟩
      ⟨tp2, A, B, fresh, output⟩ rfl rfl msg _ h
  · exact Compute_fail_transfer ndebug self ⟨tp2, A, B, fresh, output⟩
      ⟨tp1, A, B, fresh, output⟩ rfl rfl msg _ h
  · obtain ⟨msg, _, hall⟩ := hbad hb tp1
    exact ⟨msg, hall tp1, hall tp2⟩
  · intro st1 st2 r1 r2 h1 h2
    by_cases hb : A.Shape.length ≠ 2 ∨ B.Shape.length ≠ 2 ∨
        A.Shape.getD 1 0 ≠ B.Shape.getD 1 0
    · obtain ⟨msg, _, hall⟩ := hbad hb tp1
      rw [hall tp1] at h1
      rw [hall tp2] at h2
      simp only [Except.ok.injEq, Prod.mk.injEq] at h1 h2
      rw [← h1.1, ← h2.1]
    · rw [hvalid hb tp1 st1 r1 h1, hvalid hb tp2 st2 r2 h2]

/-- C12, on `A` of shape `(2,3)` and `B` of shape `(2,4)`, with no thread pool
and with a pool of two threads -/
theorem Compute_status_pool_independent_witness :
    ((2 : Nat) ≠ 2 ∨ (2 : Nat) ≠ 2 ∨ (3 : Nat) ≠ 4) ∧
    Except.map (fun r => (r.1, r.2.output))
      (CDist.Compute false ⟨0⟩
        (⟨none, ⟨[2, 3], [1, 2, 3, 4, 5, 6]⟩, ⟨[2, 4], [1, 2, 3, 4, 5, 6, 7, 8]⟩,
          fun _ => 0, none⟩ : OpKernelContext Int))
      = .ok (Status.FAIL "Input shape dimensions mismatch:", none) ∧
    Except.map (fun r => (r.1, r.2.output))
      (CDist.Compute false ⟨0⟩
        (⟨some (specPool 2), ⟨[2, 3], [1, 2, 3, 4, 5, 6]⟩, ⟨[2, 4], [1, 2, 3, 4, 5, 6, 7, 8]⟩,
          fun _ => 0, none⟩ : OpKernelContext Int))
      = .ok (Status.FAIL "Input shape dimensions mismatch:", none) ∧
    ∃ msg, CDist.Compute false ⟨0⟩
        (⟨none, ⟨[2, 3], [1, 2, 3, 4, 5, 6]⟩, ⟨[2, 4], [1, 2, 3, 4, 5, 6, 7, 8]⟩,
          fun _ => 0, none⟩ : OpKernelContext Int)
        = .ok (Status.FAIL msg,
          ⟨none, ⟨[2, 3], [1, 2, 3, 4, 5, 6]⟩, ⟨[2, 4], [1, 2, 3, 4, 5, 6, 7, 8]⟩,
            fun _ => 0, none⟩) ∧
      CDist.Compute false ⟨0⟩
        (⟨some (specPool 2), ⟨[2, 3], [1, 2, 3, 4, 5, 6]⟩,
          ⟨[2, 4], [1, 2, 3, 4, 5, 6, 7, 8]⟩, fun _ => 0, none⟩ : OpKernelContext Int)
        = .ok (Status.FAIL msg,
          ⟨some (specPool 2), ⟨[2, 3], [1, 2, 3, 4, 5, 6]⟩,
            ⟨[2, 4], [1, 2, 3, 4, 5, 6, 7, 8]⟩, fun _ => 0, none⟩) :=
  ⟨by decide, by decide, by decide,
    (Compute_status_pool_independent false ⟨0⟩ none (some (specPool 2))
      (⟨[2, 3], [1, 2, 3, 4, 5, 6]⟩ : Tensor Int) ⟨[2, 4], [1, 2, 3, 4, 5, 6, 7, 8]⟩
      (fun _ => 0) none).2.1 (by decide)⟩

/-- C14, evaluated on `ma = 2`, `mb = 3`, `n = 1`, `A = [[0],[10]]`,
`B = [[0],[1],[2]]`.  The worker body called on `[4, 5)`, which lies in row 1
and starts at column 1, makes two stores, to the offsets 4 and 5: offset 5 is
outside `[4, 5)`, and with assertions compiled in the closing assertion fails.
The worker body called on the disjoint subrange `[5, 6)` stores to offset 5 as
well.  Called on the empty subrange `[4, 4)` the worker body still stores to
offset 4. -/
theorem cdist_worker_writes_outside_subrange :
    0 < 3 ∧ 4 ≤ 5 ∧ 5 ≤ 2 * 3 ∧
    cdist_worker true Sqeuclidean (⟨[0, 10], 0⟩ : Ptr Int) ⟨[0, 1, 2], 0⟩ 0 2 3 1 4 5
      ⟨[7, 7, 7, 7, 7, 7], []⟩
      = .ok ⟨[7, 7, 7, 7, 100, 81], [⟨"Sqeuclidean", 1, 0, 4⟩, ⟨"Sqeuclidean", 1, 1, 5⟩]⟩ ∧
    cdist_worker false Sqeuclidean (⟨[0, 10], 0⟩ : Ptr Int) ⟨[0, 1, 2], 0⟩ 0 2 3 1 4 5
      ⟨[7, 7, 7, 7, 7, 7], []⟩ = .error Fault.assertFailed ∧
    cdist_worker true Sqeuclidean (⟨[0, 10], 0⟩ : Ptr Int) ⟨[0, 1, 2], 0⟩ 0 2 3 1 5 6
      ⟨[7, 7, 7, 7, 7, 7], []⟩
      = .ok ⟨[7, 7, 7, 7, 7, 64], [⟨"Sqeuclidean", 1, 2, 5⟩]⟩ ∧
    cdist_worker true Sqeuclidean (⟨[0, 10], 0⟩ : Ptr Int) ⟨[0, 1, 2], 0⟩ 0 2 3 1 4 4
      ⟨[7, 7, 7, 7, 7, 7], []⟩
      = .ok ⟨[7, 7, 7, 7, 100, 7], [⟨"Sqeuclidean", 1, 0, 4⟩]⟩ ∧
    cdist_single_threaded Sqeuclidean (⟨[0, 10], 0⟩ : Ptr Int) ⟨[0, 1, 2], 0⟩ 0 2 3 1
      ⟨[7, 7, 7, 7, 7, 7], []⟩
      = .ok ⟨[0, 1, 4, 100, 81, 64],
          [⟨"Sqeuclidean", 0, 0, 0⟩, ⟨"Sqeuclidean", 0, 1, 1⟩, ⟨"Sqeuclidean", 0, 2, 2⟩,
           ⟨"Sqeuclidean", 1, 0, 3⟩, ⟨"Sqeuclidean", 1, 1, 4⟩, ⟨"Sqeuclidean", 1, 2, 5⟩]⟩ := by
  refine ⟨by decide, by decide, by decide, by decide, by decide, by decide, by decide,
    by decide⟩

/-- C15, evaluated on `ma = 1`, `mb = 4`, `n = 1`, `A = [[0]]`,
`B = [[1],[2],[3],[4]]` and the subrange `[1, 3)`, which lies in row 0 with
`j0 = 1` and `j_end = 3`.  The worker body calls the metric for the columns 0,
1 and 2, not for the columns 1 and 2 only, and stores the three values at the
offsets 1, 2 and 3; the cells 1 and 2 receive the metric of the columns 0 and
1, where `cdist_single_threaded` leaves that of the columns 1 and 2. -/
theorem cdist_worker_single_row_restarts_at_column_zero :
    0 < 4 ∧ 1 ≤ 3 ∧ 3 ≤ 1 * 4 ∧ 1 / 4 = 3 / 4 ∧ 1 % 4 = 1 ∧ 3 % 4 = 3 ∧
    cdist_worker true Sqeuclidean (⟨[0], 0⟩ : Ptr Int) ⟨[1, 2, 3, 4], 0⟩ 0 1 4 1 1 3
      ⟨[7, 7, 7, 7], []⟩
      = .ok ⟨[7, 1, 4, 9],
          [⟨"Sqeuclidean", 0, 0, 1⟩, ⟨"Sqeuclidean", 0, 1, 2⟩, ⟨"Sqeuclidean", 0, 2, 3⟩]⟩ ∧
    cdist_worker false Sqeuclidean (⟨[0], 0⟩ : Ptr Int) ⟨[1, 2, 3, 4], 0⟩ 0 1 4 1 1 3
      ⟨[7, 7, 7, 7], []⟩ = .error Fault.assertFailed ∧
    cdist_single_threaded Sqeuclidean (⟨[0], 0⟩ : Ptr Int) ⟨[1, 2, 3, 4], 0⟩ 0 1 4 1
      ⟨[7, 7, 7, 7], []⟩
      = .ok ⟨[1, 4, 9, 16],
          [⟨"Sqeuclidean", 0, 0, 0⟩, ⟨"Sqeuclidean", 0, 1, 1⟩, ⟨"Sqeuclidean", 0, 2, 2⟩,
           ⟨"Sqeuclidean", 0, 3, 3⟩]⟩ := by
  refine ⟨by decide, by decide, by decide, by decide, by decide, by decide, by decide,
    by decide, by decide⟩

/-- C3, evaluated on valid shapes with a thread pool: `A = [[0]]` of shape
`(1,1)`, `B = [[1],[2],[3],[4]]` of shape `(4,1)`, `mode_ == 0`, and a pool
whose `parallelFor` hands the worker body the subranges `[0,1)`, `[1,2)`,
`[2,3)`, `[3,4)`.  Validation passes, and `Compute` does not return: with
assertions compiled in, the worker body called on `[1,2)` fails its closing
assertion; with `NDEBUG` the worker body called on `[2,3)` stores past the four
cells of the output.  On the same tensors without a thread pool `Compute`
returns `OK` with the output `[1, 4, 9, 16]`.  With `B` of shape `(0,1)` and a
pool that calls the worker body on `[0, 0)`, `Compute` stops on the division
by `mb = 0`. -/
theorem Compute_valid_shapes_no_return :
    ([1, 1] : List Nat).length = 2 ∧ ([4, 1] : List Nat).length = 2 ∧
    ([1, 1] : List Nat).getD 1 0 = ([4, 1] : List Nat).getD 1 0 ∧
    (⟨[1, 1], [0]⟩ : Tensor Int).WellFormed ∧ (⟨[4, 1], [1, 2, 3, 4]⟩ : Tensor Int).WellFormed ∧
    (specPool 3).blocks (3 + 1) (1 * 4) (3 * 1) = [(0, 1), (1, 2), (2, 3), (3, 4)] ∧
    Except.map (fun r => (r.1, r.2.output))
      (CDist.Compute false ⟨0⟩
        (⟨some (specPool 3), ⟨[1, 1], [0]⟩, ⟨[4, 1], [1, 2, 3, 4]⟩, fun _ => 7, none⟩ :
          OpKernelContext Int))
      = .error Fault.assertFailed ∧
    Except.map (fun r => (r.1, r.2.output))
      (CDist.Compute true ⟨0⟩
        (⟨some (specPool 3), ⟨[1, 1], [0]⟩, ⟨[4, 1], [1, 2, 3, 4]⟩, fun _ => 7, none⟩ :
          OpKernelContext Int))
      = .error Fault.outOfBounds ∧
    Except.map (fun r => (r.1, r.2.output))
      (CDist.Compute false ⟨0⟩
        (⟨none, ⟨[1, 1], [0]⟩, ⟨[4, 1], [1, 2, 3, 4]⟩, fun _ => 7, none⟩ : OpKernelContext Int))
      = .ok (Status.OK, some ([1, 4],
          ⟨[1, 4, 9, 16],
            [⟨"Sqeuclidean", 0, 0, 0⟩, ⟨"Sqeuclidean", 0, 1, 1⟩, ⟨"Sqeuclidean", 0, 2, 2⟩,
             ⟨"Sqeuclidean", 0, 3, 3⟩]⟩)) ∧
    Except.map (fun r => (r.1, r.2.output))
      (CDist.Compute true ⟨0⟩
        (⟨some ⟨1, fun _ _ _ => [(0, 0)]⟩, ⟨[1, 1], [0]⟩, ⟨[0, 1], []⟩, fun _ => 7, none⟩ :
          OpKernelContext Int))
      = .error Fault.divByZero := by
  refine ⟨by decide, by decide, by decide, rfl, rfl, by decide, by decide,
    by decide, by decide, by decide⟩

end contrib
end onnxruntime
